import Mathlib

/-!
Verification of the lettr-go client library.

This file gives a shallow embedding, in Lean 4, of the request/response
pipeline of the lettr-go repository: the `Error` shape and its
classification predicates, the error classifier `parseError`, the response
decoder `do`, client construction, header construction in `newRequest`,
`SetBaseURL` (together with a model of the parts of Go's `net/url` package
it relies on), the query-string assembly of the List operations, and the
path-segment escaping of the Get/Delete operations.

Go standard-library functions used by the code (`strings.TrimSpace`,
`http.StatusText`, `url.PathEscape`, `url.Values.Encode`, `url.Parse`,
`url.URL.String`) are modelled from their sources; restrictions of the
`net/url` model are stated in the doc comments of the relevant
definitions.  Strings are processed as lists of `Char`, matching Go's
rune-oriented handling; byte-level escaping works over the UTF-8 bytes
obtained from `String.toUTF8`.
-/

/-! ## Character helpers (Go standard library models) -/

/-- Model of Go `unicode.IsSpace`: Unicode white space as tested by
`strings.TrimSpace` (Latin-1 fast path plus the White_Space code points). -/
def goIsSpace (c : Char) : Bool :=
  let n := c.toNat
  (9 ≤ n && n ≤ 13) || n == 32 || n == 0x85 || n == 0xA0 || n == 0x1680 ||
  (0x2000 ≤ n && n ≤ 0x200A) || n == 0x2028 || n == 0x2029 || n == 0x202F ||
  n == 0x205F || n == 0x3000

/-- Model of Go `strings.TrimSpace`: drop leading and trailing white space. -/
def goTrimSpace (s : String) : String :=
  String.mk (((s.data.dropWhile goIsSpace).reverse.dropWhile goIsSpace).reverse)

/-- Model of Go `http.StatusText` (net/http/status.go): the standard text
for an HTTP status code, `""` for unknown codes. -/
def statusText (code : Nat) : String :=
  if code = 100 then "Continue"
  else if code = 101 then "Switching Protocols"
  else if code = 102 then "Processing"
  else if code = 103 then "Early Hints"
  else if code = 200 then "OK"
  else if code = 201 then "Created"
  else if code = 202 then "Accepted"
  else if code = 203 then "Non-Authoritative Information"
  else if code = 204 then "No Content"
  else if code = 205 then "Reset Content"
  else if code = 206 then "Partial Content"
  else if code = 207 then "Multi-Status"
  else if code = 208 then "Already Reported"
  else if code = 226 then "IM Used"
  else if code = 300 then "Multiple Choices"
  else if code = 301 then "Moved Permanently"
  else if code = 302 then "Found"
  else if code = 303 then "See Other"
  else if code = 304 then "Not Modified"
  else if code = 305 then "Use Proxy"
  else if code = 307 then "Temporary Redirect"
  else if code = 308 then "Permanent Redirect"
  else if code = 400 then "Bad Request"
  else if code = 401 then "Unauthorized"
  else if code = 402 then "Payment Required"
  else if code = 403 then "Forbidden"
  else if code = 404 then "Not Found"
  else if code = 405 then "Method Not Allowed"
  else if code = 406 then "Not Acceptable"
  else if code = 407 then "Proxy Authentication Required"
  else if code = 408 then "Request Timeout"
  else if code = 409 then "Conflict"
  else if code = 410 then "Gone"
  else if code = 411 then "Length Required"
  else if code = 412 then "Precondition Failed"
  else if code = 413 then "Request Entity Too Large"
  else if code = 414 then "Request URI Too Long"
  else if code = 415 then "Unsupported Media Type"
  else if code = 416 then "Requested Range Not Satisfiable"
  else if code = 417 then "Expectation Failed"
  else if code = 418 then "I\x27m a teapot"
  else if code = 421 then "Misdirected Request"
  else if code = 422 then "Unprocessable Entity"
  else if code = 423 then "Locked"
  else if code = 424 then "Failed Dependency"
  else if code = 425 then "Too Early"
  else if code = 426 then "Upgrade Required"
  else if code = 428 then "Precondition Required"
  else if code = 429 then "Too Many Requests"
  else if code = 431 then "Request Header Fields Too Large"
  else if code = 451 then "Unavailable For Legal Reasons"
  else if code = 500 then "Internal Server Error"
  else if code = 501 then "Not Implemented"
  else if code = 502 then "Bad Gateway"
  else if code = 503 then "Service Unavailable"
  else if code = 504 then "Gateway Timeout"
  else if code = 505 then "HTTP Version Not Supported"
  else if code = 506 then "Variant Also Negotiates"
  else if code = 507 then "Insufficient Storage"
  else if code = 508 then "Loop Detected"
  else if code = 510 then "Not Extended"
  else if code = 511 then "Network Authentication Required"
  else ""

/-! ## Percent-escaping (Go net/url escape models) -/

/-- Upper-case hexadecimal digit character, as used by Go's `escape`. -/
def hexDigitChar (n : Nat) : Char :=
  if n < 10 then Char.ofNat (48 + n) else Char.ofNat (55 + n)

/-- Model of Go `shouldEscape(c, encodePathSegment)`: which bytes must be
percent-escaped inside one path segment (`url.PathEscape`).  Unreserved
bytes (alphanumerics and `-_.~`) and the reserved bytes `$&+:=@` stay;
everything else, in particular `/;,?#`, is escaped. -/
def shouldEscapeSeg (b : Nat) : Bool :=
  if (97 ≤ b && b ≤ 122) || (65 ≤ b && b ≤ 90) || (48 ≤ b && b ≤ 57) then false
  else if b == 45 || b == 95 || b == 46 || b == 126 then false
  else if b == 36 || b == 38 || b == 43 || b == 58 || b == 61 || b == 64 then false
  else true

/-- Escape one byte for a path segment: `%XX` if it must be escaped,
otherwise the byte itself as a character. -/
def escapeByteSeg (b : Nat) : List Char :=
  if shouldEscapeSeg b then ['%', hexDigitChar (b / 16), hexDigitChar (b % 16)]
  else [Char.ofNat b]

/-- The UTF-8 encoding of one character, as byte values.  Models Go's
`[]byte(s)` view of a string, over which `shouldEscape` iterates. -/
def utf8Bytes (c : Char) : List Nat :=
  let n := c.toNat
  if n < 0x80 then [n]
  else if n < 0x800 then [0xC0 + n / 64, 0x80 + n % 64]
  else if n < 0x10000 then [0xE0 + n / 4096, 0x80 + n / 64 % 64, 0x80 + n % 64]
  else [0xF0 + n / 262144, 0x80 + n / 4096 % 64, 0x80 + n / 64 % 64, 0x80 + n % 64]

/-- The UTF-8 bytes of a string. -/
def stringBytes (s : String) : List Nat :=
  (s.data.map utf8Bytes).flatten

/-- Model of Go `url.PathEscape`: escape a string so it can be placed
inside a URL path segment, byte-by-byte over its UTF-8 encoding. -/
def pathEscape (s : String) : String :=
  String.mk (((stringBytes s).map escapeByteSeg).flatten)

/-- Model of Go `shouldEscape(c, encodeQueryComponent)`: which bytes must
be escaped in a query component.  Only alphanumerics and `-_.~` stay
(space is handled separately by `queryEscape`). -/
def shouldEscapeQuery (b : Nat) : Bool :=
  if (97 ≤ b && b ≤ 122) || (65 ≤ b && b ≤ 90) || (48 ≤ b && b ≤ 57) then false
  else if b == 45 || b == 95 || b == 46 || b == 126 then false
  else true

/-- Escape one byte for a query component: space becomes `+`, other
escaped bytes become `%XX`. -/
def escapeByteQuery (b : Nat) : List Char :=
  if b == 32 then ['+']
  else if shouldEscapeQuery b then ['%', hexDigitChar (b / 16), hexDigitChar (b % 16)]
  else [Char.ofNat b]

/-- Model of Go `url.QueryEscape`, as applied by `url.Values.Encode`. -/
def queryEscape (s : String) : String :=
  String.mk (((stringBytes s).map escapeByteQuery).flatten)

/-! ## url.Values and Encode -/

/-- Insert a key-value pair into a key-sorted list of pairs, keeping the
list sorted by key.  Together with `sortPairs` this models the
key-sorting done by `url.Values.Encode`. -/
def insertPair (kv : String × String) : List (String × String) → List (String × String)
  | [] => [kv]
  | x :: xs => if kv.1 ≤ x.1 then kv :: x :: xs else x :: insertPair kv xs

/-- Sort a list of key-value pairs by key (insertion sort).  `url.Values`
is a map, and `Encode` iterates its keys in sorted order; the code under
verification sets every key at most once, so a sorted list of pairs is a
faithful model. -/
def sortPairs : List (String × String) → List (String × String)
  | [] => []
  | x :: xs => insertPair x (sortPairs xs)

/-- Model of Go `url.Values.Encode`: keys in sorted order, each pair
rendered as `key=value` with both sides query-escaped, joined by `&`. -/
def encodeValues (vs : List (String × String)) : String :=
  String.intercalate "&"
    ((sortPairs vs).map (fun kv => queryEscape kv.1 ++ "=" ++ queryEscape kv.2))

/-! ## URL model (Go net/url: Parse and URL.String)

The claims about `SetBaseURL` need a model of `url.Parse` (with
`viaRequest = false`) and of `url.URL.String`.  The model keeps the host
(the whole authority, userinfo and port included) and the path in their
escaped textual form and does not validate the authority, matching
`URL.String`'s output for inputs whose escaped form is preserved;
percent-escapes in path and fragment are validated (`%` must be followed
by two hexadecimal digits), control characters before the fragment are
rejected, a leading colon is rejected ("missing protocol scheme"), and a
colon in the first segment of a scheme-less relative path is rejected,
as in Go. -/

/-- An ASCII control character (or DEL), as rejected by Go's
`stringContainsCTLByte` check in `url.parse`. -/
def isCtl (c : Char) : Bool := c.toNat < 0x20 || c.toNat == 0x7F

/-- A character allowed inside a URL scheme after the first letter
(Go `getScheme`): ASCII alphanumerics and `+-.`. -/
def isSchemeChar (c : Char) : Bool :=
  c.isAlpha || c.isDigit || c == '+' || c == '-' || c == '.'

/-- ASCII lower-casing of one character, modelling `strings.ToLower` on
the ASCII-only scheme returned by `getScheme`. -/
def toLowerChar (c : Char) : Char :=
  if c.isUpper then Char.ofNat (c.toNat + 32) else c

/-- A hexadecimal digit character, as Go's `ishex`. -/
def isHexChar (c : Char) : Bool :=
  ('0' ≤ c && c ≤ '9') || ('a' ≤ c && c ≤ 'f') || ('A' ≤ c && c ≤ 'F')

/-- Validity of percent-escapes: every `%` is followed by two hexadecimal
digits.  Models the check Go's `unescape` performs on path and fragment. -/
def validEscape : List Char → Bool
  | [] => true
  | c :: r =>
    if c = '%' then
      match r with
      | a :: b :: r' => isHexChar a && isHexChar b && validEscape r'
      | _ => false
    else validEscape r

/-- Split a character list at the first occurrence of `c`, as
`strings.Cut`: the part before, and the part after if `c` occurs. -/
def cutChar (c : Char) (l : List Char) : List Char × Option (List Char) :=
  (l.takeWhile (· ≠ c),
   match l.dropWhile (· ≠ c) with
   | [] => none
   | _ :: r => some r)

/-- Go `unhex`: the numeric value of a hexadecimal digit character. -/
def unhexVal (c : Char) : Nat :=
  if 48 ≤ c.toNat ∧ c.toNat ≤ 57 then c.toNat - 48
  else if 97 ≤ c.toNat ∧ c.toNat ≤ 102 then c.toNat - 97 + 10
  else if 65 ≤ c.toNat ∧ c.toNat ≤ 70 then c.toNat - 65 + 10
  else 0

/-- Bytes Go's `shouldEscape` leaves unescaped in a host (mode
`encodeHost`): ASCII alphanumerics, the unreserved marks `-._~`, and the
sub-delimiters plus `:[]<>` and the double quote. -/
def isHostByte (v : Nat) : Bool :=
  decide ((97 ≤ v ∧ v ≤ 122) ∨ (65 ≤ v ∧ v ≤ 90) ∨ (48 ≤ v ∧ v ≤ 57) ∨
    v ∈ [45, 46, 95, 126, 33, 36, 38, 39, 40, 41, 42, 43, 44, 59, 61,
         58, 91, 93, 60, 62, 34])

/-- Characters acceptable unescaped in a host: the allowed ASCII bytes,
or any non-ASCII character (Go's `unescape` only rejects bytes below
`0x80`, and every byte of a non-ASCII character is at least `0x80`). -/
def isHostChar (c : Char) : Bool := isHostByte c.toNat || decide (128 ≤ c.toNat)

/-- Percent-escape validity in a host (Go `unescape`, mode `encodeHost`):
every `%` is followed by two hexadecimal digits which encode a non-ASCII
byte (first digit at least 8) or are exactly `25`, and every other
character must be acceptable in a host. -/
def validHostEscapes : List Char → Bool
  | [] => true
  | c :: r =>
    if c = '%' then
      match r with
      | a :: b :: r' =>
        isHexChar a && isHexChar b &&
          (decide (8 ≤ unhexVal a) || decide (a = '2' ∧ b = '5')) &&
          validHostEscapes r'
      | _ => false
    else isHostChar c && validHostEscapes r

/-- Percent-escape validity in an IPv6 zone identifier (Go `unescape`,
mode `encodeZone`): an escape must be `%25`, an escaped space, or a byte
that needs no escaping in a host; other characters as in a host. -/
def validZoneEscapes : List Char → Bool
  | [] => true
  | c :: r =>
    if c = '%' then
      match r with
      | a :: b :: r' =>
        isHexChar a && isHexChar b &&
          (decide (a = '2' ∧ b = '5') ||
            decide (unhexVal a * 16 + unhexVal b = 32) ||
            isHostByte (unhexVal a * 16 + unhexVal b)) &&
          validZoneEscapes r'
      | _ => false
    else isHostChar c && validZoneEscapes r

/-- Go `validOptionalPort`: empty, or a colon followed by decimal digits
only. -/
def validOptionalPort : List Char → Bool
  | [] => true
  | c :: r =>
    decide (c = ':') && r.all (fun b => decide (48 ≤ b.toNat ∧ b.toNat ≤ 57))

/-- Split a character list around the last occurrence of `c` (as Go's
`strings.LastIndex`): the parts before and after it, if it occurs. -/
def splitAtLast (c : Char) : List Char → Option (List Char × List Char)
  | [] => none
  | x :: xs =>
    match splitAtLast c xs with
    | some (b, a) => some (x :: b, a)
    | none => if x = c then some ([], xs) else none

/-- Split a character list around the first occurrence of the substring
`%25` (as Go's `strings.Index(s, "%25")`): the part before the match and
the part from the match on, if it occurs. -/
def findPct25 : List Char → Option (List Char × List Char)
  | [] => none
  | x :: xs =>
    if x = '%' ∧ xs.head? = some '2' ∧ xs.tail.head? = some '5' then
      some ([], x :: xs)
    else
      match findPct25 xs with
      | some (b, a) => some (x :: b, a)
      | none => none

/-- Go `parseHost` as an acceptance predicate: a bracketed IP literal
needs a closing bracket, a valid optional port after it, and valid host
escapes (with zone-escape rules from the first `%25` up to the bracket);
otherwise everything from the last colon on must be a valid optional
port, and the whole host must pass the host escape check. -/
def parseHostOk (host : List Char) : Bool :=
  if host.head? = some '[' then
    match splitAtLast ']' host with
    | none => false
    | some (before, after) =>
      validOptionalPort after &&
        match findPct25 before with
        | some (b1, b2) =>
          validHostEscapes b1 && validZoneEscapes b2 &&
            validHostEscapes (']' :: after)
        | none => validHostEscapes host
  else
    (match splitAtLast ':' host with
     | none => true
     | some (_, after) => validOptionalPort (':' :: after)) &&
    validHostEscapes host

/-- Characters Go's `validUserinfo` accepts: ASCII alphanumerics and the
RFC 3986 userinfo set (plus `%` and `@`). -/
def validUserinfoChar (c : Char) : Bool :=
  decide ((65 ≤ c.toNat ∧ c.toNat ≤ 90) ∨ (97 ≤ c.toNat ∧ c.toNat ≤ 122) ∨
    (48 ≤ c.toNat ∧ c.toNat ≤ 57) ∨
    c.toNat ∈ [45, 46, 95, 58, 126, 33, 36, 38, 39, 40, 41, 42, 43, 44,
               59, 61, 37, 64])

/-- Go `parseAuthority` as an acceptance predicate: the host after the
last `@` must pass `parseHostOk`; a userinfo before it must consist of
`validUserinfo` characters, and its username and password (cut at the
first colon, as `strings.Cut`) must have well-formed percent-escapes. -/
def validAuthority (authority : List Char) : Bool :=
  match splitAtLast '@' authority with
  | none => parseHostOk authority
  | some (userinfo, host) =>
    parseHostOk host && userinfo.all validUserinfoChar &&
      (if userinfo.contains ':' then
        validEscape (cutChar ':' userinfo).1 &&
          validEscape ((cutChar ':' userinfo).2.getD [])
      else validEscape userinfo)

/-- Outcome of Go's `getScheme`: a malformed leading colon, no scheme
(relative reference), or a scheme together with the remainder. -/
inductive SchemeResult where
  | err : SchemeResult
  | noScheme : SchemeResult
  | found : List Char → List Char → SchemeResult
deriving DecidableEq

/-- Model of Go `getScheme`: a scheme is a leading ASCII letter followed
by scheme characters and a colon; a leading colon is an error; anything
else means the whole input is a scheme-less remainder. -/
def getScheme (l : List Char) : SchemeResult :=
  match l with
  | [] => .noScheme
  | c :: cs =>
    if c = ':' then .err
    else if c.isAlpha then
      match cs.dropWhile isSchemeChar with
      | ':' :: r => .found (c :: cs.takeWhile isSchemeChar) r
      | _ => .noScheme
    else .noScheme

/-- Model of Go `url.URL` restricted to the fields the code can reach:
scheme, opaque part, host (the full raw authority), path (escaped form),
force-query flag, raw query, and fragment, all as character lists. -/
structure GoURL where
  scheme : List Char
  opq : List Char
  omitHost : Bool
  host : List Char
  path : List Char
  forceQuery : Bool
  rawQuery : List Char
  fragment : List Char
deriving DecidableEq

/-- The inner part of `url.parse` after scheme and query removal:
dispatch on the leading slashes of the remainder to an authority
(validated as Go's `parseAuthority`), a host-less absolute path, an
opaque part, or a relative path. -/
def parseMain (scheme : List Char) (rest : List Char) (fq : Bool)
    (q frag : List Char) : Option GoURL :=
  match rest with
  | '/' :: '/' :: r =>
    if scheme ≠ [] ∨ r.head? ≠ some '/' then
      let host := r.takeWhile (· ≠ '/')
      let p := r.dropWhile (· ≠ '/')
      if validAuthority host then
        if validEscape p then some ⟨scheme, [], false, host, p, fq, q, frag⟩ else none
      else none
    else
      if validEscape rest then some ⟨scheme, [], false, [], rest, fq, q, frag⟩ else none
  | '/' :: r =>
    if validEscape ('/' :: r) then
      some ⟨scheme, [], scheme ≠ [], [], '/' :: r, fq, q, frag⟩
    else none
  | _ =>
    if scheme ≠ [] then some ⟨scheme, rest, false, [], [], fq, q, frag⟩
    else if (rest.takeWhile (· ≠ '/')).contains ':' then none
    else if validEscape rest then some ⟨[], [], false, [], rest, fq, q, frag⟩ else none

/-- Query extraction of `url.parse`: a single trailing `?` sets the
force-query flag, otherwise the remainder is cut at the first `?`. -/
def parseAfterScheme (scheme rest frag : List Char) : Option GoURL :=
  if rest.getLast? = some '?' ∧ rest.dropLast.all (· ≠ '?') then
    parseMain scheme rest.dropLast true [] frag
  else
    let cut := cutChar '?' rest
    parseMain scheme cut.1 false (cut.2.getD []) frag

/-- Model of Go `url.Parse` (over characters): split the fragment at the
first `#`, reject control characters before it and invalid escapes in it,
extract the scheme (lower-cased), then the query, then the rest. -/
def parseChars (l : List Char) : Option GoURL :=
  let cut := cutChar '#' l
  let beforeHash := cut.1
  let frag := cut.2.getD []
  if beforeHash.any isCtl then none
  else if ¬ validEscape frag then none
  else
    match getScheme beforeHash with
    | .err => none
    | .noScheme => parseAfterScheme [] beforeHash frag
    | .found sc r => parseAfterScheme (sc.map toLowerChar) r frag

/-- Model of Go `url.Parse` on strings. -/
def parseURL (s : String) : Option GoURL := parseChars s.data

/-- Model of Go `url.URL.String` (no userinfo, host and path kept in
escaped form): scheme, `//` and host when required, path, query,
fragment. -/
def renderChars (u : GoURL) : List Char :=
  (if u.scheme ≠ [] then u.scheme ++ [':'] else []) ++
  (if u.opq ≠ [] then u.opq
   else
     (if (u.scheme ≠ [] ∨ u.host ≠ []) ∧ ¬ (u.omitHost ∧ u.host = []) ∧
         (u.host ≠ [] ∨ u.path ≠ []) then '/' :: '/' :: u.host else []) ++
     (if u.path ≠ [] ∧ u.path.head? ≠ some '/' ∧ u.host ≠ [] then ['/'] else []) ++
     (if u.scheme = [] ∧ u.host = [] ∧ (u.path.takeWhile (· ≠ '/')).contains ':'
      then ['.', '/'] else []) ++
     u.path) ++
  (if u.forceQuery ∨ u.rawQuery ≠ [] then '?' :: u.rawQuery else []) ++
  (if u.fragment ≠ [] then '#' :: u.fragment else [])

/-- The string form of a stored base URL, as Go `url.URL.String`. -/
def GoURL.render (u : GoURL) : String := String.mk (renderChars u)

/-- The trailing-slash normalization performed by `SetBaseURL`: append a
`/` to the path unless it already ends with one. -/
def nrm (u : GoURL) : GoURL :=
  if u.path.getLast? = some '/' then u else { u with path := u.path ++ ['/'] }

/-! ## The lettr client data model -/

/-- The SDK version constant. -/
def Version : String := "0.1.0"

/-- The default base URL constant. -/
def defaultBaseURL : String := "https://app.lettr.com/api/"

/-- The `userAgent` constant: `lettr-go/` followed by the version. -/
def userAgent : String := "lettr-go/" ++ Version

/-- The `contentType` constant. -/
def contentType : String := "application/json"

/-- Model of the `*http.Client` configuration the code can observe: the
timeout, in seconds, it was constructed with. -/
structure GoHTTPClient where
  timeoutSeconds : Nat
deriving DecidableEq

/-- Model of `lettr.Client`: the underlying HTTP client, the stored API
key, the parsed base URL, the User-Agent string, and one flag per
resource service recording that the service was initialized and bound to
this client (each Go service holds only a pointer back to the client). -/
structure Client where
  httpClient : GoHTTPClient
  apiKey : String
  baseURL : GoURL
  userAgent : String
  emailsBound : Bool
  domainsBound : Bool
  webhooksBound : Bool
  templatesBound : Bool
deriving DecidableEq

/-- Model of `NewClientWithHTTPClient`: a `nil` HTTP client falls back to
the default 30-second-timeout client; the API key is stored trimmed; the
default base URL is parsed; all four services are bound. -/
def NewClientWithHTTPClient (apiKey : String) (httpClient : Option GoHTTPClient) : Client :=
  let hc := match httpClient with
    | none => ⟨30⟩
    | some h => h
  { httpClient := hc
    apiKey := goTrimSpace apiKey
    baseURL := (parseChars defaultBaseURL.data).getD ⟨[], [], false, [], [], false, [], []⟩
    userAgent := userAgent
    emailsBound := true
    domainsBound := true
    webhooksBound := true
    templatesBound := true }

/-- Model of `NewClient`: construct with the default 30-second-timeout
HTTP client. -/
def NewClient (apiKey : String) : Client :=
  NewClientWithHTTPClient apiKey (some ⟨30⟩)

/-- Model of `Client.SetBaseURL`: parse the raw URL (an error leaves the
client unchanged), normalize the trailing slash, and store the result.
Returns the updated client and the error, if any. -/
def SetBaseURL (c : Client) (rawURL : String) : Client × Option String :=
  match parseChars rawURL.data with
  | none => (c, some "parse error")
  | some u => ({ c with baseURL := nrm u }, none)

/-! ## Requests and headers -/

/-- Model of `*http.Request` as far as the code observes it: method, the
relative path handed to `newRequest`, the headers, and whether a body is
attached.  Resolution of the relative path against the base URL is not
the subject of any claim and is not modelled. -/
structure Request where
  method : String
  path : String
  headers : List (String × String)
  hasBody : Bool
deriving DecidableEq

/-- Look up a header by its (canonical) key. -/
def getHeader (req : Request) (key : String) : Option String :=
  (req.headers.find? (fun kv => kv.1 == key)).map Prod.snd

/-- Model of `Client.newRequest`: sets `Accept`, `User-Agent`, and
`Authorization: Bearer <stored key>`; adds `Content-Type` when a body is
present.  All four keys are distinct, so `Header.Set` behaves as list
construction. -/
def newRequest (c : Client) (method path : String) (hasBody : Bool) : Request :=
  { method := method
    path := path
    headers :=
      [("Accept", contentType), ("User-Agent", c.userAgent),
       ("Authorization", "Bearer " ++ c.apiKey)] ++
      (if hasBody then [("Content-Type", contentType)] else [])
    hasBody := hasBody }

/-- Model of the request built by `Client.HealthCheck`: `newRequest` for
`GET health` with no body, then `Header.Del` of `Authorization`. -/
def healthCheckRequest (c : Client) : Request :=
  let req := newRequest c "GET" "health" false
  { req with headers := req.headers.filter (fun kv => kv.1 ≠ "Authorization") }

/-! ## The Error shape and classification -/

/-- Model of `lettr.Error`: HTTP status code, message, machine-readable
code, and field-level validation errors. -/
structure Error where
  statusCode : Nat
  message : String
  errorCode : String
  errors : List (String × List String)
deriving DecidableEq

/-- The fields of the Error shape that JSON decoding can populate
(`StatusCode` carries the json:"-" tag and is never decoded). -/
structure ErrFields where
  message : String
  errorCode : String
  errors : List (String × List String)
deriving DecidableEq

/-- Outcome of decoding a response body as the Error shape: the body is
absent (`resp.Body == nil`), decoding fails (the fields written before
the failure are retained, as Go's decoder leaves them in place), or
decoding succeeds. -/
inductive BodyDecode where
  | absent : BodyDecode
  | failure : ErrFields → BodyDecode
  | success : ErrFields → BodyDecode
deriving DecidableEq

/-- Model of an `*http.Response` as far as `do` and `parseError` observe
it: the status code, the outcome of decoding the body as the Error
shape, and whether the body decodes into the caller's destination type. -/
structure HTTPResponse where
  statusCode : Nat
  errBody : BodyDecode
  destDecodeOk : Bool
deriving DecidableEq

/-- Model of `parseError`: always capture the status code; fall back to
`http.StatusText` when the body is absent or fails to decode, or when the
decoded message is empty. -/
def parseError (resp : HTTPResponse) : Error :=
  match resp.errBody with
  | .absent => ⟨resp.statusCode, statusText resp.statusCode, "", []⟩
  | .failure f => ⟨resp.statusCode, statusText resp.statusCode, f.errorCode, f.errors⟩
  | .success d =>
    ⟨resp.statusCode,
     if d.message = "" then statusText resp.statusCode else d.message,
     d.errorCode, d.errors⟩

/-- A Go `error` value as the callers of this library can receive one:
either the API `*Error` shape, or some other (wrapped) error such as a
transport or decode failure, carrying only a message. -/
inductive GoError where
  | api : Error → GoError
  | wrapped : String → GoError
deriving DecidableEq

/-- Model of `IsNotFound`: a type assertion to `*Error`, then a
status-code comparison with 404. -/
def IsNotFound (err : Option GoError) : Bool :=
  match err with
  | some (.api e) => e.statusCode == 404
  | _ => false

/-- Model of `IsValidationError`: `*Error` with status code 422. -/
def IsValidationError (err : Option GoError) : Bool :=
  match err with
  | some (.api e) => e.statusCode == 422
  | _ => false

/-- Model of `IsUnauthorized`: `*Error` with status code 401. -/
def IsUnauthorized (err : Option GoError) : Bool :=
  match err with
  | some (.api e) => e.statusCode == 401
  | _ => false

/-- Model of the error result of `Client.do` once an HTTP response has
been received (the transport-failure path returns before this point):
non-2xx delegates to `parseError`; otherwise, with a destination and a
status other than 204, the body is decoded and a decode failure is
wrapped; otherwise no error. -/
def doResponse (resp : HTTPResponse) (hasDest : Bool) : Option GoError :=
  if resp.statusCode < 200 ∨ 300 ≤ resp.statusCode then
    some (.api (parseError resp))
  else if hasDest ∧ resp.statusCode ≠ 204 then
    if resp.destDecodeOk then none
    else some (.wrapped "lettr: failed to decode response")
  else none

/-! ## Resource service paths -/

/-- Model of `ListEmailsParams` (Go ints become `Int`). -/
structure ListEmailsParams where
  PerPage : Int
  Cursor : String
  Recipients : String
  From : String
  To : String
deriving DecidableEq

/-- The `url.Values` assembled by `EmailService.List`: one pair per field
that passes its guard (`> 0` for the int, nonempty for the strings). -/
def emailsListValues (p : ListEmailsParams) : List (String × String) :=
  (if p.PerPage > 0 then [("per_page", toString p.PerPage)] else []) ++
  (if p.Cursor ≠ "" then [("cursor", p.Cursor)] else []) ++
  (if p.Recipients ≠ "" then [("recipients", p.Recipients)] else []) ++
  (if p.From ≠ "" then [("from", p.From)] else []) ++
  (if p.To ≠ "" then [("to", p.To)] else [])

/-- Model of the relative path built by `EmailService.List`: `emails`,
with the encoded query appended when it is nonempty. -/
def emailsListPath (params : Option ListEmailsParams) : String :=
  match params with
  | none => "emails"
  | some p =>
    let encoded := encodeValues (emailsListValues p)
    if encoded = "" then "emails" else "emails" ++ "?" ++ encoded

/-- Model of `ListTemplatesParams`. -/
structure ListTemplatesParams where
  ProjectID : Int
  PerPage : Int
  Page : Int
deriving DecidableEq

/-- The `url.Values` assembled by `TemplateService.List`. -/
def templatesListValues (p : ListTemplatesParams) : List (String × String) :=
  (if p.ProjectID > 0 then [("project_id", toString p.ProjectID)] else []) ++
  (if p.PerPage > 0 then [("per_page", toString p.PerPage)] else []) ++
  (if p.Page > 0 then [("page", toString p.Page)] else [])

/-- Model of the relative path built by `TemplateService.List`. -/
def templatesListPath (params : Option ListTemplatesParams) : String :=
  match params with
  | none => "templates"
  | some p =>
    let encoded := encodeValues (templatesListValues p)
    if encoded = "" then "templates" else "templates" ++ "?" ++ encoded

/-- Model of the path built by `EmailService.Get`:
`fmt.Sprintf("emails/%s", url.PathEscape(requestID))`. -/
def emailsGetPath (requestID : String) : String :=
  "emails/" ++ pathEscape requestID

/-- Model of the path built by `DomainService.Get`. -/
def domainsGetPath (domain : String) : String :=
  "domains/" ++ pathEscape domain

/-- Model of the path built by `DomainService.Delete`. -/
def domainsDeletePath (domain : String) : String :=
  "domains/" ++ pathEscape domain

/-- Model of the path built by `WebhookService.Get`. -/
def webhooksGetPath (webhookID : String) : String :=
  "webhooks/" ++ pathEscape webhookID

/-! ## Invariants of parsed URLs -/

/-- Shape facts that hold of every URL produced by `parseChars`, before
the trailing-slash normalization of `SetBaseURL`. -/
structure ParseShape (u : GoURL) : Prop where
  scheme_shape : u.scheme = [] ∨ ∃ c cs, u.scheme = c :: cs ∧ c.isAlpha = true ∧
    (∀ a ∈ cs, isSchemeChar a = true) ∧ u.scheme.map toLowerChar = u.scheme
  host_ok : ∀ a ∈ u.host, a ≠ '/' ∧ a ≠ '?' ∧ a ≠ '#' ∧ isCtl a = false
  path_ok : ∀ a ∈ u.path, a ≠ '?' ∧ a ≠ '#' ∧ isCtl a = false
  query_ok : ∀ a ∈ u.rawQuery, a ≠ '#' ∧ isCtl a = false
  opq_ok : ∀ a ∈ u.opq, a ≠ '?' ∧ a ≠ '#' ∧ isCtl a = false
  opq_head : u.opq.head? ≠ some '/'
  frag_ok : validEscape u.fragment = true
  path_esc : validEscape u.path = true
  fq_q : u.forceQuery = true → u.rawQuery = []
  shape_opq : u.opq ≠ [] → u.scheme ≠ [] ∧ u.host = [] ∧ u.omitHost = false ∧
    u.path = []
  shape_omit : u.omitHost = true → u.scheme ≠ [] ∧ u.host = [] ∧ u.opq = [] ∧
    ∃ r, u.path = '/' :: r ∧ r.head? ≠ some '/'
  shape_host : u.host ≠ [] → u.opq = [] ∧ u.omitHost = false ∧
    (u.path = [] ∨ u.path.head? = some '/')
  shape_abs : u.opq = [] → u.host = [] → u.omitHost = false → u.scheme ≠ [] →
    (u.path = [] ∨ u.path.head? = some '/')
  shape_rel : u.scheme = [] → u.host = [] →
    (∀ a ∈ u.path.takeWhile (fun x => decide (x ≠ '/')), a ≠ ':') ∧
    (u.path.head? = some '/' → u.path.tail.head? = some '/' →
      u.path.tail.tail.head? = some '/')
  host_valid : validAuthority u.host = true

/-- Shape facts of a stored base URL: a parsed URL after the
trailing-slash normalization of `SetBaseURL`. -/
structure URLInv (v : GoURL) : Prop where
  scheme_shape : v.scheme = [] ∨ ∃ c cs, v.scheme = c :: cs ∧ c.isAlpha = true ∧
    (∀ a ∈ cs, isSchemeChar a = true) ∧ v.scheme.map toLowerChar = v.scheme
  host_ok : ∀ a ∈ v.host, a ≠ '/' ∧ a ≠ '?' ∧ a ≠ '#' ∧ isCtl a = false
  path_ok : ∀ a ∈ v.path, a ≠ '?' ∧ a ≠ '#' ∧ isCtl a = false
  query_ok : ∀ a ∈ v.rawQuery, a ≠ '#' ∧ isCtl a = false
  opq_ok : ∀ a ∈ v.opq, a ≠ '?' ∧ a ≠ '#' ∧ isCtl a = false
  opq_head : v.opq.head? ≠ some '/'
  frag_ok : validEscape v.fragment = true
  path_esc : validEscape v.path = true
  fq_q : v.forceQuery = true → v.rawQuery = []
  path_slash : v.path.getLast? = some '/'
  shape_opq : v.opq ≠ [] → v.scheme ≠ [] ∧ v.host = [] ∧ v.omitHost = false ∧
    v.path = ['/']
  shape_omit : v.omitHost = true → v.scheme ≠ [] ∧ v.host = [] ∧ v.opq = [] ∧
    ∃ r, v.path = '/' :: r ∧ r.head? ≠ some '/'
  shape_host : v.host ≠ [] → v.opq = [] ∧ v.omitHost = false ∧
    v.path.head? = some '/'
  shape_abs : v.opq = [] → v.host = [] → v.omitHost = false → v.scheme ≠ [] →
    v.path.head? = some '/'
  shape_rel : v.scheme = [] → v.host = [] →
    (∀ a ∈ v.path.takeWhile (fun x => decide (x ≠ '/')), a ≠ ':') ∧
    (v.path.head? = some '/' → v.path.tail.head? = some '/' →
      v.path.tail.tail.head? = some '/')
  host_valid : validAuthority v.host = true

/-- Clients used to instantiate the base-URL claims at concrete inputs. -/
def clientWitA : Client := NewClient "key"

def clientWitA' : Client := (SetBaseURL clientWitA "http://h/api").1

def clientWitB : Client := (SetBaseURL clientWitA "http://h/api?x=1").1

def clientWitC : Client := NewClient "other"

def clientWitC' : Client := (SetBaseURL clientWitC "foo").1

/-! ## Claims about the response decoder and error taxonomy -/

/-- C1: once the response decoder `do` has received an HTTP response, a
status outside [200,300) yields `parseError`'s classification as the
operation's error; a status inside [200,300) with a destination and a
status other than 204 decodes the body (wrapping a decode failure); and a
status inside [200,300) with no destination, or with status 204, yields
no error independently of whether the body would decode. -/
theorem c1_do_decode_dispatch (resp : HTTPResponse) (hasDest : Bool) :
    ((resp.statusCode < 200 ∨ 300 ≤ resp.statusCode) →
      doResponse resp hasDest = some (.api (parseError resp))) ∧
    (200 ≤ resp.statusCode → resp.statusCode < 300 → hasDest = true →
      resp.statusCode ≠ 204 →
      (resp.destDecodeOk = true → doResponse resp hasDest = none) ∧
      (resp.destDecodeOk = false →
        doResponse resp hasDest = some (.wrapped "lettr: failed to decode response"))) ∧
    (200 ≤ resp.statusCode → resp.statusCode < 300 →
      (hasDest = false ∨ resp.statusCode = 204) →
      ∀ b, doResponse { resp with destDecodeOk := b } hasDest = none) := by
  obtain ⟨s, eb, dok⟩ := resp
  refine ⟨fun h => ?_, fun h1 h2 h3 h4 => ⟨fun h5 => ?_, fun h5 => ?_⟩,
    fun h1 h2 h3 b => ?_⟩
  · simp only [doResponse]
    rw [if_pos h]
  · simp only [doResponse] at *
    rw [if_neg (by omega), if_pos ⟨h3, h4⟩, if_pos h5]
  · simp only [doResponse] at *
    rw [if_neg (by omega), if_pos ⟨h3, h4⟩, if_neg (by simp [h5])]
  · simp only [doResponse] at *
    dsimp only
    rw [if_neg (by omega)]
    have hne : ¬(hasDest = true ∧ s ≠ 204) := by
      rcases h3 with h3 | h3
      · simp [h3]
      · simp [h3]
    rw [if_neg hne]

/-- Witness for C1 at a concrete 404 response. -/
theorem c1_do_decode_dispatch_witness :
    doResponse ⟨404, .absent, false⟩ true =
      some (.api (parseError ⟨404, .absent, false⟩)) :=
  (c1_do_decode_dispatch ⟨404, .absent, false⟩ true).1 (by decide)

/-- C2: the three classification predicates hold exactly of `*Error`
values with status 404, 422, and 401 respectively, and are false on every
wrapped (non-`*Error`) error and on nil. -/
theorem c2_predicates_status_only (err : Option GoError) :
    (IsNotFound err = true ↔ ∃ e, err = some (.api e) ∧ e.statusCode = 404) ∧
    (IsValidationError err = true ↔ ∃ e, err = some (.api e) ∧ e.statusCode = 422) ∧
    (IsUnauthorized err = true ↔ ∃ e, err = some (.api e) ∧ e.statusCode = 401) ∧
    (∀ m, IsNotFound (some (.wrapped m)) = false ∧
      IsValidationError (some (.wrapped m)) = false ∧
      IsUnauthorized (some (.wrapped m)) = false) ∧
    (IsNotFound none = false ∧ IsValidationError none = false ∧
      IsUnauthorized none = false) := by
  refine ⟨?_, ?_, ?_, fun m => ⟨rfl, rfl, rfl⟩, rfl, rfl, rfl⟩ <;>
  · match err with
    | none => simp [IsNotFound, IsValidationError, IsUnauthorized]
    | some (.wrapped m) => simp [IsNotFound, IsValidationError, IsUnauthorized]
    | some (.api e) => simp [IsNotFound, IsValidationError, IsUnauthorized]

/-- C3: `parseError` always copies the response's status code into the
Error, and the message is the standard status text when the body is
absent, fails to decode, or decodes with an empty message; otherwise it
is the decoded message. -/
theorem c3_parseError_message (resp : HTTPResponse)
    (h : resp.statusCode < 200 ∨ 300 ≤ resp.statusCode) :
    (parseError resp).statusCode = resp.statusCode ∧
    (resp.errBody = .absent →
      (parseError resp).message = statusText resp.statusCode) ∧
    (∀ f, resp.errBody = .failure f →
      (parseError resp).message = statusText resp.statusCode) ∧
    (∀ d, resp.errBody = .success d → d.message = "" →
      (parseError resp).message = statusText resp.statusCode) ∧
    (∀ d, resp.errBody = .success d → d.message ≠ "" →
      (parseError resp).message = d.message) := by
  obtain ⟨s, eb, dok⟩ := resp
  match eb with
  | .absent => simp [parseError]
  | .failure f => simp [parseError]
  | .success d =>
    refine ⟨by simp [parseError], by simp, by simp, ?_, ?_⟩
    · intro d' hd' hm
      injection hd' with h'
      subst h'
      simp [parseError, hm]
    · intro d' hd' hm
      injection hd' with h'
      subst h'
      simp [parseError, hm]

/-- Witness for C3 at a concrete body-less 404 response. -/
theorem c3_parseError_message_witness :
    (parseError ⟨404, .absent, true⟩).statusCode = 404 ∧
    (parseError ⟨404, .absent, true⟩).message = statusText 404 :=
  ⟨(c3_parseError_message ⟨404, .absent, true⟩ (by decide)).1,
   (c3_parseError_message ⟨404, .absent, true⟩ (by decide)).2.1 rfl⟩

/-! ## Claims about client construction and headers -/

/-- C4 (amended): the health-check request carries no Authorization
header while keeping Accept and User-Agent; every request built by
`newRequest` carries `Authorization: Bearer ` followed by the stored
credential — the construction credential with surrounding white space
trimmed — together with `Accept: application/json` and the
`lettr-go/<version>` User-Agent. -/
theorem c4_headers (t method path : String) (hasBody : Bool) :
    getHeader (healthCheckRequest (NewClient t)) "Authorization" = none ∧
    getHeader (healthCheckRequest (NewClient t)) "Accept" = some contentType ∧
    getHeader (healthCheckRequest (NewClient t)) "User-Agent" = some userAgent ∧
    getHeader (newRequest (NewClient t) method path hasBody) "Authorization" =
      some ("Bearer " ++ goTrimSpace t) ∧
    getHeader (newRequest (NewClient t) method path hasBody) "Accept" =
      some contentType ∧
    getHeader (newRequest (NewClient t) method path hasBody) "User-Agent" =
      some userAgent := by
  refine ⟨?_, ?_, ?_, ?_, ?_, ?_⟩ <;>
    simp [getHeader, healthCheckRequest, newRequest, NewClient,
      NewClientWithHTTPClient, List.find?, List.filter]

/-- Counterexample to C4 as stated: for the construction credential
`" k "` the Authorization header is `Bearer k`, not `Bearer ` followed by
the credential given at construction. -/
theorem c4_counterexample :
    getHeader (newRequest (NewClient " k ") "GET" "emails" false) "Authorization" =
      some "Bearer k" ∧
    some "Bearer k" ≠ some ("Bearer " ++ " k ") := by
  exact ⟨by decide, by decide⟩

/-- C9: constructing with a nil HTTP client equals `NewClient` (and so
uses the default 30-second-timeout transport), and binds all four
resource services. -/
theorem c9_nil_http_client (k : String) :
    NewClientWithHTTPClient k none = NewClient k ∧
    (NewClientWithHTTPClient k none).httpClient = ⟨30⟩ ∧
    (NewClientWithHTTPClient k none).emailsBound = true ∧
    (NewClientWithHTTPClient k none).domainsBound = true ∧
    (NewClientWithHTTPClient k none).webhooksBound = true ∧
    (NewClientWithHTTPClient k none).templatesBound = true :=
  ⟨rfl, rfl, rfl, rfl, rfl, rfl⟩

/-- C10: the API key is stored trimmed of surrounding white space, so two
keys with the same trimmed form produce identical requests. -/
theorem c10_trimmed_key :
    (∀ k, (NewClient k).apiKey = goTrimSpace k) ∧
    (∀ k₁ k₂ method path hasBody, goTrimSpace k₁ = goTrimSpace k₂ →
      newRequest (NewClient k₁) method path hasBody =
        newRequest (NewClient k₂) method path hasBody) :=
  ⟨fun _ => rfl,
   fun _ _ _ _ _ h => by
    simp [newRequest, NewClient, NewClientWithHTTPClient, h]⟩

/-- Witness for C10 with the keys `"  key "` and `"key"`. -/
theorem c10_trimmed_key_witness :
    goTrimSpace "  key " = goTrimSpace "key" ∧
    newRequest (NewClient "  key ") "GET" "emails" false =
      newRequest (NewClient "key") "GET" "emails" false :=
  ⟨by decide, c10_trimmed_key.2 "  key " "key" "GET" "emails" false (by decide)⟩

/-! ## Claims about the resource-service paths -/

/-- Membership in an insertion-sorted list is membership. -/
theorem mem_insertPair (kv x : String × String) (l : List (String × String)) :
    x ∈ insertPair kv l ↔ x = kv ∨ x ∈ l := by
  induction l with
  | nil => simp [insertPair]
  | cons y ys ih =>
    simp only [insertPair]
    split_ifs
    · simp [or_comm, or_assoc, or_left_comm]
    · simp [ih, or_comm, or_assoc, or_left_comm]

/-- Sorting the pairs preserves membership. -/
theorem mem_sortPairs (x : String × String) (l : List (String × String)) :
    x ∈ sortPairs l ↔ x ∈ l := by
  induction l with
  | nil => simp [sortPairs]
  | cons y ys ih => simp [sortPairs, mem_insertPair, ih]

/-- Membership in a conditionally-present singleton. -/
theorem mem_ite_singleton {α : Type} (g : Prop) [Decidable g] (x y : α) :
    x ∈ (if g then [y] else []) ↔ g ∧ x = y := by
  split_ifs with h <;> simp [h]

/-- C7: the query string built by `Emails.List` and `Templates.List`
carries exactly the pairs for fields that pass their guards: the
concrete instance `{PerPage: 10}` yields exactly `per_page=10`, and in
general a pair is in the assembled (sorted) values if and only if it is
the pair of a set field. -/
theorem c7_query_exact :
    emailsListPath (some ⟨10, "", "", "", ""⟩) = "emails?per_page=10" ∧
    templatesListPath (some ⟨0, 10, 0⟩) = "templates?per_page=10" ∧
    (∀ p : ListEmailsParams, ∀ k v : String,
      (k, v) ∈ sortPairs (emailsListValues p) ↔
        ((p.PerPage > 0 ∧ k = "per_page" ∧ v = toString p.PerPage) ∨
         (p.Cursor ≠ "" ∧ k = "cursor" ∧ v = p.Cursor) ∨
         (p.Recipients ≠ "" ∧ k = "recipients" ∧ v = p.Recipients) ∨
         (p.From ≠ "" ∧ k = "from" ∧ v = p.From) ∨
         (p.To ≠ "" ∧ k = "to" ∧ v = p.To))) ∧
    (∀ p : ListTemplatesParams, ∀ k v : String,
      (k, v) ∈ sortPairs (templatesListValues p) ↔
        ((p.ProjectID > 0 ∧ k = "project_id" ∧ v = toString p.ProjectID) ∨
         (p.PerPage > 0 ∧ k = "per_page" ∧ v = toString p.PerPage) ∨
         (p.Page > 0 ∧ k = "page" ∧ v = toString p.Page))) := by
  refine ⟨by decide, by decide, fun p k v => ?_, fun p k v => ?_⟩
  · simp only [mem_sortPairs, emailsListValues, List.mem_append,
      mem_ite_singleton, Prod.mk.injEq]
    tauto
  · simp only [mem_sortPairs, templatesListValues, List.mem_append,
      mem_ite_singleton, Prod.mk.injEq]
    tauto

/-- Every byte of the UTF-8 encoding of a character is below 256. -/
theorem utf8Bytes_lt (c : Char) : ∀ b ∈ utf8Bytes c, b < 256 := by
  intro b hb
  have hn : c.toNat < 1114112 := by
    have h := c.valid
    rcases h with h | ⟨h1, h2⟩ <;> simp [Char.toNat] <;> omega
  simp only [utf8Bytes] at hb
  split_ifs at hb <;> simp at hb <;> omega

set_option maxRecDepth 4000 in
set_option maxHeartbeats 2000000 in
/-- No character produced by escaping a single byte for a path segment is
a path, query, or fragment delimiter. -/
theorem escapeByteSeg_no_delims :
    ∀ b : Nat, b < 256 → ∀ c ∈ escapeByteSeg b, c ≠ '/' ∧ c ≠ '?' ∧ c ≠ '#' := by
  decide

/-- C8: the Get/Delete paths embed the user-supplied identifier as the
resource prefix followed by its path-segment escape, and that escape
contains no path, query, or fragment delimiter, so the identifier stays a
single path segment. -/
theorem c8_path_escaped_ids (id : String) :
    emailsGetPath id = "emails/" ++ pathEscape id ∧
    domainsGetPath id = "domains/" ++ pathEscape id ∧
    domainsDeletePath id = "domains/" ++ pathEscape id ∧
    webhooksGetPath id = "webhooks/" ++ pathEscape id ∧
    ∀ c ∈ (pathEscape id).data, c ≠ '/' ∧ c ≠ '?' ∧ c ≠ '#' := by
  refine ⟨rfl, rfl, rfl, rfl, fun c hc => ?_⟩
  simp only [pathEscape, stringBytes, List.mem_flatten, List.mem_map] at hc
  obtain ⟨l, ⟨b, hb, rfl⟩, hcl⟩ := hc
  obtain ⟨bl, ⟨ch, _, rfl⟩, hbl⟩ := hb
  exact escapeByteSeg_no_delims b (utf8Bytes_lt ch b hbl) c hcl

/-! ## List lemmas for the URL parser -/

/-- takeWhile runs through a prefix whose elements all satisfy `p` and
stops at the first failing element. -/
theorem takeWhile_append_cons {α : Type} (p : α → Bool) (l₁ l₂ : List α) (c : α)
    (h₁ : ∀ a ∈ l₁, p a = true) (hc : p c = false) :
    (l₁ ++ c :: l₂).takeWhile p = l₁ := by
  induction l₁ with
  | nil => simp [List.takeWhile, hc]
  | cons x xs ih =>
    have hx := h₁ x (by simp)
    simp only [List.cons_append, List.takeWhile, hx]
    simp [ih (fun a ha => h₁ a (by simp [ha]))]

/-- dropWhile companion of `takeWhile_append_cons`. -/
theorem dropWhile_append_cons {α : Type} (p : α → Bool) (l₁ l₂ : List α) (c : α)
    (h₁ : ∀ a ∈ l₁, p a = true) (hc : p c = false) :
    (l₁ ++ c :: l₂).dropWhile p = c :: l₂ := by
  induction l₁ with
  | nil => simp [List.dropWhile, hc]
  | cons x xs ih =>
    have hx := h₁ x (by simp)
    simp only [List.cons_append, List.dropWhile, hx]
    simp [ih (fun a ha => h₁ a (by simp [ha]))]

/-- takeWhile of a list all of whose elements satisfy `p`. -/
theorem takeWhile_all {α : Type} (p : α → Bool) (l : List α)
    (h : ∀ a ∈ l, p a = true) : l.takeWhile p = l := by
  induction l with
  | nil => rfl
  | cons x xs ih =>
    simp only [List.takeWhile, h x (by simp)]
    simp [ih (fun a ha => h a (by simp [ha]))]

/-- dropWhile of a list all of whose elements satisfy `p`. -/
theorem dropWhile_all {α : Type} (p : α → Bool) (l : List α)
    (h : ∀ a ∈ l, p a = true) : l.dropWhile p = [] := by
  induction l with
  | nil => rfl
  | cons x xs ih =>
    simp only [List.dropWhile, h x (by simp)]
    simp [ih (fun a ha => h a (by simp [ha]))]

/-- takeWhile stops inside the first block when that block has a failing
element. -/
theorem takeWhile_append_of_stop {α : Type} (p : α → Bool) (l₁ l₂ : List α)
    (h : ∃ a ∈ l₁, p a = false) :
    (l₁ ++ l₂).takeWhile p = l₁.takeWhile p := by
  induction l₁ with
  | nil => obtain ⟨a, ha, _⟩ := h; simp at ha
  | cons x xs ih =>
    by_cases hx : p x = true
    · obtain ⟨a, ha, hpa⟩ := h
      have hne : ∃ a ∈ xs, p a = false := by
        rcases List.mem_cons.mp ha with rfl | hmem
        · rw [hx] at hpa; cases hpa
        · exact ⟨a, hmem, hpa⟩
      simp only [List.cons_append, List.takeWhile, hx]
      simp [ih hne]
    · have hx' : p x = false := by revert hx; cases p x <;> simp
      simp [List.takeWhile, hx']

/-- The first omitted element of dropWhile fails `p`. -/
theorem dropWhile_head_false {α : Type} (p : α → Bool) (l : List α) (x : α)
    (hx : (l.dropWhile p).head? = some x) : p x = false := by
  induction l with
  | nil => simp [List.dropWhile] at hx
  | cons y ys ih =>
    by_cases hy : p y = true
    · simp only [List.dropWhile, hy] at hx
      exact ih hx
    · have hy' : p y = false := by revert hy; cases p y <;> simp
      simp only [List.dropWhile, hy'] at hx
      cases hx
      exact hy'

/-- Splitting at the first occurrence of a character that does occur. -/
theorem cutChar_found (c : Char) (l₁ l₂ : List Char)
    (h : ∀ a ∈ l₁, a ≠ c) :
    cutChar c (l₁ ++ c :: l₂) = (l₁, some l₂) := by
  have hp : ∀ a ∈ l₁, (decide (a ≠ c)) = true := fun a ha => by
    simp [h a ha]
  have hc : (decide (c ≠ c)) = false := by simp
  simp only [cutChar]
  rw [takeWhile_append_cons _ _ _ _ hp hc, dropWhile_append_cons _ _ _ _ hp hc]

/-- Splitting at a character that does not occur. -/
theorem cutChar_none (c : Char) (l : List Char) (h : ∀ a ∈ l, a ≠ c) :
    cutChar c l = (l, none) := by
  have hp : ∀ a ∈ l, (decide (a ≠ c)) = true := fun a ha => by simp [h a ha]
  simp only [cutChar]
  rw [takeWhile_all _ _ hp, dropWhile_all _ _ hp]

/-! ## Scheme, escape, and query-step lemmas -/

/-- Appending a slash preserves escape validity. -/
theorem validEscape_append_slash : ∀ n (l : List Char), l.length ≤ n →
    validEscape l = true → validEscape (l ++ ['/']) = true := by
  intro n
  induction n with
  | zero =>
    intro l hl _
    have : l = [] := List.length_eq_zero.mp (Nat.le_zero.mp hl)
    subst this
    decide
  | succ n ih =>
    intro l hl h
    rcases l with _ | ⟨c, _ | ⟨a, _ | ⟨b, r'⟩⟩⟩
    · decide
    · by_cases hc : c = '%'
      · subst hc
        exact absurd h (by decide)
      · show validEscape [c, '/'] = true
        simp only [validEscape, if_neg hc]
        decide
    · by_cases hc : c = '%'
      · subst hc
        exact absurd h (by simp [validEscape])
      · have h' : validEscape [a] = true := by
          simpa only [validEscape, if_neg hc] using h
        have h2 := ih [a] (by simp at hl ⊢; omega) h'
        show validEscape [c, a, '/'] = true
        simpa only [validEscape, if_neg hc] using h2
    · by_cases hc : c = '%'
      · subst hc
        have h' : ((isHexChar a && isHexChar b) && validEscape r') = true := by
          simpa only [validEscape, if_pos rfl] using h
        simp only [Bool.and_eq_true] at h'
        have h2 := ih r' (by simp at hl ⊢; omega) h'.2
        show validEscape ('%' :: a :: b :: (r' ++ ['/'])) = true
        simp [validEscape, h'.1.1, h'.1.2, h2]
      · have h' : validEscape (a :: b :: r') = true := by
          simpa only [validEscape, if_neg hc] using h
        have h2 := ih (a :: b :: r') (by simp at hl ⊢; omega) h'
        show validEscape (c :: (a :: b :: (r' ++ ['/']))) = true
        simpa only [validEscape, if_neg hc] using h2

/-- Escape validity of a path survives the trailing-slash normalization. -/
theorem validEscape_concat_slash (l : List Char) (h : validEscape l = true) :
    validEscape (l ++ ['/']) = true :=
  validEscape_append_slash l.length l (Nat.le_refl _) h

/-- A successful `getScheme` decomposes its input as scheme, colon,
remainder, with the recorded shape of the scheme. -/
theorem getScheme_found (bh sc r : List Char) (h : getScheme bh = .found sc r) :
    (∃ c cs, sc = c :: cs ∧ c.isAlpha = true ∧ ∀ a ∈ cs, isSchemeChar a = true) ∧
    bh = sc ++ ':' :: r := by
  match bh with
  | [] => simp [getScheme] at h
  | c :: cs =>
    simp only [getScheme] at h
    split_ifs at h with h1 h2
    · split at h
      next r' hd =>
        injection h with hsc hr
        subst hr
        constructor
        · exact ⟨c, cs.takeWhile isSchemeChar, hsc.symm, h2,
            fun a ha => List.mem_takeWhile_imp ha⟩
        · rw [← hsc]
          have hsplit := List.takeWhile_append_dropWhile (p := isSchemeChar) (l := cs)
          rw [hd] at hsplit
          simp only [List.cons_append]
          rw [hsplit]
      next hne => cases h

/-- The scheme produced by `getScheme` and lower-casing: a leading colon
never reaches `found`, so reassembling scheme, colon, remainder and
parsing again finds the same split. -/
theorem getScheme_render (c : Char) (cs r : List Char)
    (hc : c.isAlpha = true) (hcs : ∀ a ∈ cs, isSchemeChar a = true) :
    getScheme ((c :: cs) ++ ':' :: r) = .found (c :: cs) r := by
  have hne : c ≠ ':' := by
    intro h
    subst h
    simp [Char.isAlpha, Char.isUpper, Char.isLower] at hc
  have hcolon : isSchemeChar ':' = false := by decide
  simp only [List.cons_append, getScheme, if_neg hne, if_pos hc]
  rw [dropWhile_append_cons _ _ _ _ hcs hcolon, takeWhile_append_cons _ _ _ _ hcs hcolon]
  rfl

/-- A list whose first segment (up to the first slash) is colon-free has
no scheme. -/
theorem getScheme_noScheme_of (l : List Char)
    (h : ∀ a ∈ l.takeWhile (fun x => decide (x ≠ '/')), a ≠ ':') :
    getScheme l = .noScheme := by
  match l with
  | [] => rfl
  | c :: cs =>
    have hcne : c ≠ ':' := by
      intro hc
      subst hc
      exact h ':' (by simp [List.takeWhile]) rfl
    by_cases hca : c.isAlpha = true
    · have hsub : ∀ t : List Char, (∀ a ∈ t.takeWhile (fun x => decide (x ≠ '/')), a ≠ ':') →
          ∀ x, (t.dropWhile isSchemeChar).head? = some x → x ≠ ':' := by
        intro t
        induction t with
        | nil => intro _ x hx; simp [List.dropWhile] at hx
        | cons y ys ih =>
          intro ht x hx
          by_cases hy : isSchemeChar y = true
          · have hyne : y ≠ '/' := by
              intro hy'
              subst hy'
              simp [isSchemeChar, Char.isAlpha, Char.isUpper, Char.isLower, Char.isDigit] at hy
            simp only [List.dropWhile, hy] at hx
            refine ih ?_ x hx
            intro a ha
            refine ht a ?_
            have hstep : List.takeWhile (fun x => decide (x ≠ '/')) (y :: ys) =
                y :: List.takeWhile (fun x => decide (x ≠ '/')) ys := by
              simp [List.takeWhile, hyne]
            rw [hstep]
            exact List.mem_cons_of_mem _ ha
          · have hy' : isSchemeChar y = false := by revert hy; cases isSchemeChar y <;> simp
            simp only [List.dropWhile, hy'] at hx
            cases hx
            intro hxc
            subst hxc
            have : (':' : Char) ≠ '/' := by decide
            exact absurd rfl (ht ':' (by simp [List.takeWhile, this]))
      have hc' : c ≠ '/' := by
        intro hc
        subst hc
        simp [Char.isAlpha, Char.isUpper, Char.isLower] at hca
      have hcs : ∀ a ∈ cs.takeWhile (fun x => decide (x ≠ '/')), a ≠ ':' := by
        intro a ha
        have hstep : List.takeWhile (fun x => decide (x ≠ '/')) (c :: cs) =
            c :: List.takeWhile (fun x => decide (x ≠ '/')) cs := by
          simp [List.takeWhile, hc']
        exact h a (by rw [hstep]; exact List.mem_cons_of_mem _ ha)
      simp only [getScheme, if_neg hcne, if_pos hca]
      split
      next r' heq =>
        have hx : ':' ≠ ':' := by
          refine hsub cs hcs ':' ?_
          rw [heq]
          rfl
        exact absurd rfl hx
      next => rfl
    · simp only [getScheme, if_neg hcne, if_neg hca]

/-! ## Character lemmas for the round trip -/

/-- Character codes below the surrogate range survive `Char.ofNat`. -/
theorem toNat_ofNat_valid (n : Nat) (h : n < 55296) : (Char.ofNat n).toNat = n := by
  have hv : n.isValidChar := Or.inl h
  rw [Char.ofNat, dif_pos hv]
  rfl

/-- Upper-case characters have codes between 65 and 90. -/
theorem isUpper_toNat (c : Char) (h : c.isUpper = true) :
    65 ≤ c.toNat ∧ c.toNat ≤ 90 := by
  simpa [Char.isUpper] using h

/-- Lower-casing preserves being an ASCII letter. -/
theorem toLowerChar_isAlpha (c : Char) (h : c.isAlpha = true) :
    (toLowerChar c).isAlpha = true := by
  by_cases hu : c.isUpper = true
  · have hn := isUpper_toNat c hu
    have hv : (Char.ofNat (c.toNat + 32)).toNat = c.toNat + 32 :=
      toNat_ofNat_valid _ (by omega)
    have hlow : (Char.ofNat (c.toNat + 32)).isLower = true := by
      have hb : 97 ≤ (Char.ofNat (c.toNat + 32)).toNat ∧
          (Char.ofNat (c.toNat + 32)).toNat ≤ 122 := by
        rw [hv]; omega
      simpa [Char.isLower] using hb
    simp [toLowerChar, hu, Char.isAlpha, hlow]
  · simpa [toLowerChar, hu] using h

/-- Lower-casing preserves scheme characters. -/
theorem toLowerChar_isSchemeChar (a : Char) (h : isSchemeChar a = true) :
    isSchemeChar (toLowerChar a) = true := by
  by_cases hu : a.isUpper = true
  · have halpha : a.isAlpha = true := by simp [Char.isAlpha, hu]
    have := toLowerChar_isAlpha a halpha
    simp [isSchemeChar, this]
  · simpa [toLowerChar, hu] using h

/-- Lower-casing is idempotent. -/
theorem toLowerChar_idem (c : Char) : toLowerChar (toLowerChar c) = toLowerChar c := by
  by_cases hu : c.isUpper = true
  · have hn := isUpper_toNat c hu
    have hv : (Char.ofNat (c.toNat + 32)).toNat = c.toNat + 32 :=
      toNat_ofNat_valid _ (by omega)
    have hgt : 90 < (Char.ofNat (c.toNat + 32)).toNat := by
      rw [hv]; omega
    have hnu : (Char.ofNat (c.toNat + 32)).isUpper = false := by
      simp [Char.isUpper]
      intro _
      exact hgt
    simp [toLowerChar, hu, hnu]
  · simp [toLowerChar, hu]

/-- Scheme characters are never URL structure delimiters or control
characters. -/
theorem schemeChar_not_delim (a : Char) (h : isSchemeChar a = true) :
    a ≠ '#' ∧ a ≠ '?' ∧ a ≠ ':' ∧ a ≠ '/' ∧ isCtl a = false := by
  refine ⟨?_, ?_, ?_, ?_, ?_⟩
  · rintro rfl; exact absurd h (by decide)
  · rintro rfl; exact absurd h (by decide)
  · rintro rfl; exact absurd h (by decide)
  · rintro rfl; exact absurd h (by decide)
  · simp [isSchemeChar, Char.isAlpha, Char.isUpper, Char.isLower, Char.isDigit] at h
    rcases h with (((((h | h) | h) | h) | h) | h)
    · have h' : 65 ≤ a.toNat ∧ a.toNat ≤ 90 := h
      simp [isCtl]
      omega
    · have h' : 97 ≤ a.toNat ∧ a.toNat ≤ 122 := h
      simp [isCtl]
      omega
    · have h' : 48 ≤ a.toNat ∧ a.toNat ≤ 57 := h
      simp [isCtl]
      omega
    · subst h; decide
    · subst h; decide
    · subst h; decide

/-- ASCII letters are never URL structure delimiters or control
characters. -/
theorem alpha_not_delim (a : Char) (h : a.isAlpha = true) :
    a ≠ '#' ∧ a ≠ '?' ∧ a ≠ ':' ∧ a ≠ '/' ∧ isCtl a = false := by
  have : isSchemeChar a = true := by simp [isSchemeChar, h]
  exact schemeChar_not_delim a this

/-! ## Render-and-reparse step lemmas -/

/-- Cutting the rendered fragment back off. -/
theorem cutChar_hash_render (core frag : List Char) (h : ∀ a ∈ core, a ≠ '#') :
    cutChar '#' (core ++ (if frag ≠ [] then '#' :: frag else [])) =
      (core, if frag ≠ [] then some frag else none) := by
  by_cases hf : frag = []
  · simp only [hf, ne_eq, not_true_eq_false, if_false, List.append_nil]
    exact cutChar_none '#' core h
  · simp only [ne_eq, hf, not_false_eq_true, if_true]
    exact cutChar_found '#' core frag h

/-- Undoing the rendered query: `parseAfterScheme` of the query-rendered
remainder is `parseMain` on the original parts. -/
theorem parseAfterScheme_render (scheme a q frag : List Char) (fq : Bool)
    (ha : ∀ x ∈ a, x ≠ '?') (hfq : fq = true → q = []) :
    parseAfterScheme scheme (a ++ (if fq = true ∨ q ≠ [] then '?' :: q else [])) frag =
      parseMain scheme a fq q frag := by
  by_cases hb : fq = true
  · have hq : q = [] := hfq hb
    subst hq hb
    simp only [true_or, if_true]
    have hcond : (a ++ ['?']).getLast? = some '?' ∧
        ((a ++ ['?']).dropLast.all (fun x => decide (x ≠ '?'))) = true := by
      constructor
      · simp
      · rw [List.dropLast_concat]
        simp only [List.all_eq_true]
        intro x hx
        simp [ha x hx]
    rw [parseAfterScheme, if_pos ?_]
    · rw [List.dropLast_concat]
    · exact ⟨hcond.1, hcond.2⟩
  · have hb' : fq = false := by revert hb; cases fq <;> simp
    subst hb'
    by_cases hq : q = []
    · subst hq
      have harg : (a ++ if false = true ∨ ([] : List Char) ≠ [] then '?' :: [] else []) = a := by
        simp
      rw [harg, parseAfterScheme, if_neg ?_]
      · rw [cutChar_none '?' a ha]
        rfl
      · rintro ⟨hlast, -⟩
        exact ha '?' (List.mem_of_mem_getLast? (by rw [hlast]; rfl)) rfl
    · have harg : (a ++ if false = true ∨ q ≠ [] then '?' :: q else []) = a ++ '?' :: q := by
        simp [hq]
      rw [harg, parseAfterScheme, if_neg ?_]
      · rw [cutChar_found '?' a q ha]
        rfl
      · rintro ⟨-, hall⟩
        have hmem : '?' ∈ (a ++ '?' :: q).dropLast := by
          have hrw : (a ++ '?' :: q).dropLast = a ++ ('?' :: q).dropLast := by
            rw [List.dropLast_append_of_ne_nil]
            simp
          rw [hrw]
          have hq' : ('?' :: q).dropLast = '?' :: q.dropLast := by
            cases hq2 : q with
            | nil => exact absurd hq2 hq
            | cons y ys => simp
          rw [hq']
          simp
        simp only [List.all_eq_true] at hall
        have := hall '?' hmem
        simp at this

/-- The path of a normalized URL. -/
theorem nrm_path (u : GoURL) :
    (nrm u).path = if u.path.getLast? = some '/' then u.path else u.path ++ ['/'] := by
  simp only [nrm]
  split_ifs <;> rfl

/-- Normalization changes only the path. -/
theorem nrm_fields (u : GoURL) :
    (nrm u).scheme = u.scheme ∧ (nrm u).opq = u.opq ∧
    (nrm u).omitHost = u.omitHost ∧ (nrm u).host = u.host ∧
    (nrm u).forceQuery = u.forceQuery ∧ (nrm u).rawQuery = u.rawQuery ∧
    (nrm u).fragment = u.fragment := by
  simp only [nrm]
  split_ifs <;> exact ⟨rfl, rfl, rfl, rfl, rfl, rfl, rfl⟩

/-- The normalized path always ends in a slash. -/
theorem nrm_path_slash (u : GoURL) : (nrm u).path.getLast? = some '/' := by
  rw [nrm_path]
  split_ifs with h
  · exact h
  · simp

/-- Normalization carries the parse-produced shape facts over to the
stored-base invariant. -/
theorem parseShape_nrm (u : GoURL) (h : ParseShape u) : URLInv (nrm u) := by
  obtain ⟨sch, opq, omh, host, path, fq, q, frag⟩ := u
  obtain ⟨h1, h2, h3, h4, h5, h6, h7, h8, h9, h10, h11, h12, h13, h14, h15⟩ := h
  simp only at h1 h2 h3 h4 h5 h6 h7 h8 h9 h10 h11 h12 h13 h14 h15
  by_cases hsl : path.getLast? = some '/'
  · have hnrm : nrm ⟨sch, opq, omh, host, path, fq, q, frag⟩ =
        ⟨sch, opq, omh, host, path, fq, q, frag⟩ := by
      simp [nrm, hsl]
    rw [hnrm]
    have hpathne : path ≠ [] := by
      intro hp
      rw [hp] at hsl
      simp at hsl
    refine ⟨h1, h2, h3, h4, h5, h6, h7, h8, h9, hsl, ?_, h11, ?_, ?_, h14, h15⟩
    · intro hne
      exact absurd (h10 hne).2.2.2 hpathne
    · intro hne
      obtain ⟨ha, hb, hc⟩ := h12 hne
      exact ⟨ha, hb, hc.resolve_left hpathne⟩
    · intro ha hb hc hd
      exact (h13 ha hb hc hd).resolve_left hpathne
  · have hnrm : nrm ⟨sch, opq, omh, host, path, fq, q, frag⟩ =
        ⟨sch, opq, omh, host, path ++ ['/'], fq, q, frag⟩ := by
      simp [nrm, hsl]
    rw [hnrm]
    refine ⟨h1, h2, ?_, h4, h5, h6, h7, ?_, h9, ?_, ?_, ?_, ?_, ?_, ?_, h15⟩
    · intro a ha
      rcases List.mem_append.mp ha with ha | ha
      · exact h3 a ha
      · simp at ha
        subst ha
        exact ⟨by decide, by decide, by decide⟩
    · exact validEscape_concat_slash path h8
    · simp
    · intro hne
      obtain ⟨ha, hb, hc, hd⟩ := h10 hne
      subst hd
      exact ⟨ha, hb, hc, rfl⟩
    · intro homit
      obtain ⟨ha, hb, hc, r, hr, hhead⟩ := h11 homit
      subst hr
      refine ⟨ha, hb, hc, r ++ ['/'], rfl, ?_⟩
      cases r with
      | nil => exact absurd rfl hsl
      | cons y ys =>
        simp only [List.cons_append, List.head?_cons]
        simp only [List.head?_cons] at hhead
        exact hhead
    · intro hne
      obtain ⟨ha, hb, hc⟩ := h12 hne
      refine ⟨ha, hb, ?_⟩
      rcases hc with hc | hc
      · subst hc; rfl
      · cases path with
        | nil => rfl
        | cons y ys =>
          simp only [List.head?_cons] at hc
          simpa using hc
    · intro ha hb hc hd
      rcases h13 ha hb hc hd with hp | hp
      · subst hp; rfl
      · cases path with
        | nil => rfl
        | cons y ys =>
          simp only [List.head?_cons] at hp
          simpa using hp
    · intro hsch hhost
      dsimp only at hsch hhost
      obtain ⟨hcolon, hheads⟩ := h14 hsch hhost
      constructor
      · intro a ha
        dsimp only at ha
        by_cases hin : ∃ x ∈ path, (fun x => decide (x ≠ '/')) x = false
        · rw [takeWhile_append_of_stop _ _ _ hin] at ha
          exact hcolon a ha
        · push_neg at hin
          have hall : ∀ x ∈ path, (fun x => decide (x ≠ '/')) x = true := by
            intro x hx
            cases hdec : (fun x => decide (x ≠ '/')) x with
            | false => exact absurd hdec (hin x hx)
            | true => rfl
          have hslash : (fun x => decide (x ≠ '/')) '/' = false := by decide
          rw [show path ++ ['/'] = path ++ '/' :: [] from rfl,
            takeWhile_append_cons _ _ _ _ hall hslash] at ha
          have hall2 : path.takeWhile (fun x => decide (x ≠ '/')) = path :=
            takeWhile_all _ _ hall
          exact hcolon a (by rw [hall2]; exact ha)
      · dsimp only
        cases path with
        | nil =>
          intro hh1 hh2
          simp at hh2
        | cons y ys =>
          cases ys with
          | nil =>
            intro hh1 hh2
            exfalso
            simp only [List.cons_append, List.nil_append, List.head?_cons,
              Option.some.injEq] at hh1
            apply hsl
            subst hh1
            rfl
          | cons z zs =>
            intro hh1 hh2
            simp only [List.cons_append, List.head?_cons, Option.some.injEq,
              List.tail_cons] at hh1 hh2 ⊢
            have hconc := hheads (by simp [hh1]) (by simp [hh2])
            simp only [List.tail_cons] at hconc
            cases zs with
            | nil => simp at hconc
            | cons w ws =>
              simp only [List.head?_cons, Option.some.injEq] at hconc
              simp [hconc]

/-- Inversion of `parseMain`: every URL it produces satisfies the
parse-shape invariant. -/
theorem parseMain_inv (scheme rest : List Char) (fq : Bool) (q frag : List Char)
    (u : GoURL)
    (hss : scheme = [] ∨ ∃ c cs, scheme = c :: cs ∧ c.isAlpha = true ∧
      (∀ a ∈ cs, isSchemeChar a = true) ∧ scheme.map toLowerChar = scheme)
    (hrest : ∀ a ∈ rest, a ≠ '#' ∧ a ≠ '?' ∧ isCtl a = false)
    (hq : ∀ a ∈ q, a ≠ '#' ∧ isCtl a = false)
    (hfq : fq = true → q = [])
    (hfrag : validEscape frag = true)
    (h : parseMain scheme rest fq q frag = some u) :
    ParseShape u := by
  rw [parseMain.eq_def] at h
  split at h
  case h_1 r =>
    by_cases hcond : scheme ≠ [] ∨ r.head? ≠ some '/'
    · rw [if_pos hcond] at h
      dsimp only at h
      have hva : validAuthority (List.takeWhile (fun x => decide (x ≠ '/')) r) = true := by
        by_contra hva
        rw [if_neg hva] at h
        cases h
      rw [if_pos hva] at h
      by_cases hesc : validEscape (List.dropWhile (fun x => decide (x ≠ '/')) r) = true
      · rw [if_pos hesc] at h
        injection h with h'
        subst h'
        have hmemr : ∀ a ∈ r, a ∈ '/' :: '/' :: r := by
          intro a ha
          exact List.mem_cons_of_mem _ (List.mem_cons_of_mem _ ha)
        refine ⟨hss, ?_, ?_, hq, ?_, ?_, hfrag, hesc, hfq, ?_, ?_, ?_, ?_, ?_, hva⟩
        · intro a ha
          have har : a ∈ r := (List.takeWhile_sublist _).subset ha
          have h1 := hrest a (hmemr a har)
          exact ⟨by simpa using List.mem_takeWhile_imp ha, h1.2.1, h1.1, h1.2.2⟩
        · intro a ha
          have har : a ∈ r := (List.dropWhile_sublist _).subset ha
          have h1 := hrest a (hmemr a har)
          exact ⟨h1.2.1, h1.1, h1.2.2⟩
        · intro a ha
          simp at ha
        · simp
        · intro hne
          simp at hne
        · intro homit
          simp at homit
        · intro hhne
          refine ⟨rfl, rfl, ?_⟩
          cases hp : List.dropWhile (fun x => decide (x ≠ '/')) r with
          | nil => exact Or.inl rfl
          | cons x xs =>
            right
            have hx := dropWhile_head_false _ r x (by rw [hp]; rfl)
            simp at hx
            subst hx
            simp [hp]
        · intro _ _ _ _
          cases hp : List.dropWhile (fun x => decide (x ≠ '/')) r with
          | nil => exact Or.inl rfl
          | cons x xs =>
            right
            have hx := dropWhile_head_false _ r x (by rw [hp]; rfl)
            simp at hx
            subst hx
            simp [hp]
        · intro hsch hhost
          simp only at hsch hhost
          have hr : r = [] := by
            cases hr : r with
            | nil => rfl
            | cons y ys =>
              exfalso
              rcases hcond with hc | hc
              · exact hc hsch
              · apply hc
                subst hr
                by_cases hy : y = '/'
                · simp [hy]
                · exfalso
                  have hstep : List.takeWhile (fun x => decide (x ≠ '/')) (y :: ys) =
                      y :: List.takeWhile (fun x => decide (x ≠ '/')) ys := by
                    simp [List.takeWhile, hy]
                  rw [hstep] at hhost
                  cases hhost
          subst hr
          simp
      · rw [if_neg hesc] at h
        cases h
    · rw [if_neg hcond] at h
      have hcond' : scheme = [] ∧ r.head? = some '/' := by
        push_neg at hcond
        exact ⟨hcond.1, hcond.2⟩
      by_cases hesc : validEscape ('/' :: '/' :: r) = true
      · rw [if_pos hesc] at h
        injection h with h'
        subst h'
        refine ⟨hss, ?_, ?_, hq, ?_, ?_, hfrag, hesc, hfq, ?_, ?_, ?_, ?_, ?_, ?_⟩
        · intro a ha
          simp at ha
        · intro a ha
          have h1 := hrest a ha
          exact ⟨h1.2.1, h1.1, h1.2.2⟩
        · intro a ha
          simp at ha
        · simp
        · intro hne
          simp at hne
        · intro homit
          simp at homit
        · intro hhne
          simp at hhne
        · intro _ _ _ hsch
          exact absurd hcond'.1 hsch
        · intro _ _
          constructor
          · intro a ha
            simp [List.takeWhile] at ha
          · intro _ _
            simp only [List.tail_cons]
            exact hcond'.2
        · show validAuthority [] = true
          decide
      · rw [if_neg hesc] at h
        cases h
  case h_2 r hne1 =>
    by_cases hesc : validEscape ('/' :: r) = true
    · rw [if_pos hesc] at h
      injection h with h'
      subst h'
      have hrne : r.head? ≠ some '/' := by
        intro hr
        cases r with
        | nil => simp at hr
        | cons y ys =>
          simp at hr
          subst hr
          exact hne1 ys rfl
      refine ⟨hss, ?_, ?_, hq, ?_, ?_, hfrag, hesc, hfq, ?_, ?_, ?_, ?_, ?_, ?_⟩
      · intro a ha
        simp at ha
      · intro a ha
        have h1 := hrest a ha
        exact ⟨h1.2.1, h1.1, h1.2.2⟩
      · intro a ha
        simp at ha
      · simp
      · intro hop
        simp at hop
      · intro homit
        simp only at homit
        have hs : scheme ≠ [] := of_decide_eq_true homit
        exact ⟨hs, rfl, rfl, r, rfl, hrne⟩
      · intro hh
        simp at hh
      · intro _ _ _ _
        simp
      · intro _ _
        constructor
        · intro a ha
          simp [List.takeWhile] at ha
        · intro _ hr2
          simp only [List.tail_cons] at hr2
          exact absurd hr2 hrne
      · show validAuthority [] = true
        decide
    · rw [if_neg hesc] at h
      cases h
  case h_3 hne1 hne2 =>
    by_cases hs : scheme ≠ []
    · rw [if_pos hs] at h
      injection h with h'
      subst h'
      have hresthead : rest.head? ≠ some '/' := by
        intro hr
        cases rest with
        | nil => simp at hr
        | cons y ys =>
          simp at hr
          subst hr
          cases ys with
          | nil => exact hne2 [] rfl
          | cons z zs =>
            by_cases hz : z = '/'
            · subst hz
              exact hne1 zs rfl
            · exact hne2 (z :: zs) rfl
      refine ⟨hss, ?_, ?_, hq, ?_, hresthead, hfrag, rfl, hfq, ?_, ?_, ?_, ?_, ?_, ?_⟩
      · intro a ha
        simp at ha
      · intro a ha
        simp at ha
      · intro a ha
        have h1 := hrest a ha
        exact ⟨h1.2.1, h1.1, h1.2.2⟩
      · intro _
        exact ⟨hs, rfl, rfl, rfl⟩
      · intro homit
        simp at homit
      · intro hh
        simp at hh
      · intro _ _ _ _
        exact Or.inl rfl
      · intro hsch _
        exact absurd hsch hs
      · show validAuthority [] = true
        decide
    · rw [if_neg hs] at h
      have hs' : scheme = [] := by
        simpa [ne_eq, not_not] using hs
      by_cases hcolon : (List.takeWhile (fun x => decide (x ≠ '/')) rest).contains ':' = true
      · rw [if_pos hcolon] at h
        cases h
      · rw [if_neg hcolon] at h
        by_cases hesc : validEscape rest = true
        · rw [if_pos hesc] at h
          injection h with h'
          subst h'
          refine ⟨Or.inl rfl, ?_, ?_, hq, ?_, ?_, hfrag, hesc, hfq, ?_, ?_, ?_, ?_, ?_, ?_⟩
          · intro a ha
            simp at ha
          · intro a ha
            have h1 := hrest a ha
            exact ⟨h1.2.1, h1.1, h1.2.2⟩
          · intro a ha
            simp at ha
          · simp
          · intro hop
            simp at hop
          · intro homit
            simp at homit
          · intro hh
            simp at hh
          · intro _ _ _ hsch
            exact absurd rfl hsch
          · intro _ _
            constructor
            · intro a ha hacolon
              subst hacolon
              exact hcolon (List.elem_eq_true_of_mem ha)
            · intro hh1 _
              exfalso
              cases rest with
              | nil => simp at hh1
              | cons y ys =>
                simp at hh1
                subst hh1
                exact hne2 ys rfl
          · show validAuthority [] = true
            decide
        · rw [if_neg hesc] at h
          cases h

/-- Inversion of the query-extraction stage. -/
theorem parseAfterScheme_inv (scheme rest frag : List Char) (u : GoURL)
    (hss : scheme = [] ∨ ∃ c cs, scheme = c :: cs ∧ c.isAlpha = true ∧
      (∀ a ∈ cs, isSchemeChar a = true) ∧ scheme.map toLowerChar = scheme)
    (hrest : ∀ a ∈ rest, a ≠ '#' ∧ isCtl a = false)
    (hfrag : validEscape frag = true)
    (h : parseAfterScheme scheme rest frag = some u) :
    ParseShape u := by
  rw [parseAfterScheme] at h
  by_cases hforce : rest.getLast? = some '?' ∧
      (rest.dropLast.all fun x => decide (x ≠ '?')) = true
  · rw [if_pos hforce] at h
    refine parseMain_inv scheme rest.dropLast true [] frag u hss ?_ ?_ (fun _ => rfl)
      hfrag h
    · intro a ha
      have hmem := List.mem_of_mem_dropLast ha
      have h1 := hrest a hmem
      have h2 : a ≠ '?' := by
        have := List.all_eq_true.mp hforce.2 a ha
        simpa using this
      exact ⟨h1.1, h2, h1.2⟩
    · intro a ha
      simp at ha
  · rw [if_neg hforce] at h
    dsimp only at h
    simp only [cutChar] at h
    cases hdp : List.dropWhile (fun x => decide (x ≠ '?')) rest with
    | nil =>
      rw [hdp] at h
      refine parseMain_inv scheme (rest.takeWhile fun x => decide (x ≠ '?')) false
        [] frag u hss ?_ ?_ (fun hx => by cases hx) hfrag h
      · intro a ha
        have hmem := (List.takeWhile_sublist _).subset ha
        have h1 := hrest a hmem
        have h2 : a ≠ '?' := by simpa using List.mem_takeWhile_imp ha
        exact ⟨h1.1, h2, h1.2⟩
      · intro a ha
        simp at ha
    | cons x xs =>
      rw [hdp] at h
      refine parseMain_inv scheme (rest.takeWhile fun x => decide (x ≠ '?')) false
        xs frag u hss ?_ ?_ (fun hx => by cases hx) hfrag h
      · intro a ha
        have hmem := (List.takeWhile_sublist _).subset ha
        have h1 := hrest a hmem
        have h2 : a ≠ '?' := by simpa using List.mem_takeWhile_imp ha
        exact ⟨h1.1, h2, h1.2⟩
      · intro a ha
        have hmem : a ∈ rest := by
          have hx : a ∈ List.dropWhile (fun x => decide (x ≠ '?')) rest := by
            rw [hdp]
            exact List.mem_cons_of_mem _ ha
          exact (List.dropWhile_sublist (fun x => decide (x ≠ '?'))).subset hx
        exact hrest a hmem

/-- Inversion of `parseChars`: every URL it produces satisfies the
parse-shape invariant. -/
theorem parseChars_inv (l : List Char) (u : GoURL) (h : parseChars l = some u) :
    ParseShape u := by
  rw [parseChars] at h
  simp only [cutChar] at h
  by_cases hctl : ((l.takeWhile fun x => decide (x ≠ '#')).any isCtl) = true
  · rw [if_pos hctl] at h
    cases h
  · rw [if_neg hctl] at h
    have hbh : ∀ a ∈ l.takeWhile (fun x => decide (x ≠ '#')), a ≠ '#' ∧ isCtl a = false := by
      intro a ha
      constructor
      · simpa using List.mem_takeWhile_imp ha
      · have := List.any_eq_false.mp (by simpa using hctl) a ha
        simpa using this
    set fr := ((match l.dropWhile (fun x => decide (x ≠ '#')) with
      | [] => none
      | _ :: r => some r).getD []) with hfr
    by_cases hvf : validEscape fr = true
    · rw [if_neg (by simpa using hvf)] at h
      revert h
      cases hgs : getScheme (l.takeWhile fun x => decide (x ≠ '#')) with
      | err => intro h; cases h
      | noScheme =>
        intro h
        exact parseAfterScheme_inv [] _ fr u (Or.inl rfl) hbh hvf h
      | found sc r =>
        intro h
        obtain ⟨⟨c, cs, hsc, hca, hcs⟩, hdecomp⟩ := getScheme_found _ sc r hgs
        have hshape : (sc.map toLowerChar) = [] ∨ ∃ c' cs',
            sc.map toLowerChar = c' :: cs' ∧ c'.isAlpha = true ∧
            (∀ a ∈ cs', isSchemeChar a = true) ∧
            (sc.map toLowerChar).map toLowerChar = sc.map toLowerChar := by
          right
          refine ⟨toLowerChar c, cs.map toLowerChar, ?_, ?_, ?_, ?_⟩
          · rw [hsc]
            rfl
          · exact toLowerChar_isAlpha c hca
          · intro a ha
            obtain ⟨b, hb, rfl⟩ := List.mem_map.mp ha
            exact toLowerChar_isSchemeChar b (hcs b hb)
          · rw [List.map_map]
            apply List.map_congr_left
            intro a _
            exact toLowerChar_idem a
        refine parseAfterScheme_inv (sc.map toLowerChar) r fr u hshape ?_ hvf h
        intro a ha
        refine hbh a ?_
        rw [hdecomp]
        exact List.mem_append.mpr (Or.inr (List.mem_cons_of_mem _ ha))
    · rw [if_pos (by simpa using hvf)] at h
      cases h

/-- Every URL stored by `SetBaseURL` satisfies the stored-base invariant. -/
theorem parseChars_nrm_inv (l : List Char) (u : GoURL) (h : parseChars l = some u) :
    URLInv (nrm u) :=
  parseShape_nrm u (parseChars_inv l u h)

/-- Parsing a string assembled as hash-free core plus rendered fragment:
the fragment splits back off, and the guards pass. -/
theorem parseChars_decompose (core frag : List Char)
    (hhash : ∀ a ∈ core, a ≠ '#')
    (hctl : ∀ a ∈ core, isCtl a = false)
    (hfrag : validEscape frag = true) :
    parseChars (core ++ (if frag ≠ [] then '#' :: frag else [])) =
      (match getScheme core with
       | .err => none
       | .noScheme => parseAfterScheme [] core frag
       | .found sc r => parseAfterScheme (sc.map toLowerChar) r frag) := by
  have hcut := cutChar_hash_render core frag hhash
  have hany : core.any isCtl = false := by
    rw [List.any_eq_false]
    intro a ha
    simp [hctl a ha]
  rw [parseChars, hcut]
  have hgetd : ((if frag ≠ [] then some frag else none).getD []) = frag := by
    split_ifs with hf
    · rfl
    · simp only [ne_eq, not_not] at hf
      rw [hf]
      rfl
  simp only [hgetd, hany]
  rw [if_neg (by simp), if_neg (by simp [hfrag])]

/-- Evaluation of `parseMain` on an authority-form remainder. -/
theorem parseMain_authority (scheme host path : List Char) (fq : Bool) (q frag : List Char)
    (hhost : ∀ a ∈ host, (fun x => decide (x ≠ '/')) a = true)
    (hpath : path.head? = some '/')
    (hcond : scheme ≠ [] ∨ (host ++ path).head? ≠ some '/')
    (hvalid : validAuthority host = true)
    (hesc : validEscape path = true) :
    parseMain scheme ('/' :: '/' :: (host ++ path)) fq q frag =
      some ⟨scheme, [], false, host, path, fq, q, frag⟩ := by
  obtain ⟨pt, hpt⟩ : ∃ pt, path = '/' :: pt := by
    cases path with
    | nil => simp at hpath
    | cons x xs =>
      simp only [List.head?_cons, Option.some.injEq] at hpath
      exact ⟨xs, by rw [hpath]⟩
  subst hpt
  simp only [parseMain]
  rw [if_pos hcond]
  rw [takeWhile_append_cons _ host pt '/' hhost (by decide),
      dropWhile_append_cons _ host pt '/' hhost (by decide)]
  rw [if_pos hvalid, if_pos hesc]

/-- Evaluation of `parseMain` on a single-slash remainder. -/
theorem parseMain_single (scheme r : List Char) (fq : Bool) (q frag : List Char)
    (hr : r.head? ≠ some '/')
    (hesc : validEscape ('/' :: r) = true) :
    parseMain scheme ('/' :: r) fq q frag =
      some ⟨scheme, [], decide (scheme ≠ []), [], '/' :: r, fq, q, frag⟩ := by
  rw [parseMain.eq_def]
  split
  next r2 heq =>
    exfalso
    injection heq with _ h2
    apply hr
    rw [h2]
    rfl
  next r2 heq =>
    injection heq with _ h2
    subst h2
    rw [if_pos hesc]
  next hne1 hne2 =>
    exact absurd rfl (hne2 r)

/-- Evaluation of `parseMain` on a scheme-less triple-slash remainder. -/
theorem parseMain_tripleslash (r : List Char) (fq : Bool) (q frag : List Char)
    (hr : r.head? = some '/')
    (hesc : validEscape ('/' :: '/' :: r) = true) :
    parseMain [] ('/' :: '/' :: r) fq q frag =
      some ⟨[], [], false, [], '/' :: '/' :: r, fq, q, frag⟩ := by
  simp only [parseMain]
  rw [if_neg (by simp [hr]), if_pos hesc]

/-- Evaluation of `parseMain` on a scheme-less relative path. -/
theorem parseMain_relative (fq : Bool) (q frag : List Char)
    (x : Char) (xs : List Char) (hx : x ≠ '/')
    (hcolon : ((x :: xs).takeWhile (fun c => decide (c ≠ '/'))).contains ':' = false)
    (hesc : validEscape (x :: xs) = true) :
    parseMain [] (x :: xs) fq q frag = some ⟨[], [], false, [], x :: xs, fq, q, frag⟩ := by
  rw [parseMain.eq_def]
  split
  next r heq =>
    exfalso
    injection heq with h1 _
    exact hx h1
  next r heq =>
    exfalso
    injection heq with h1 _
    exact hx h1
  next hne1 hne2 =>
    rw [if_neg (by simp), if_neg (by rw [hcolon]; simp), if_pos hesc]

/-- Parsing a fully rendered URL string: scheme part, middle, query and
fragment reassemble into `parseMain` on the middle. -/
theorem parseChars_core (scheme a q frag : List Char) (fq : Bool)
    (hscheme : scheme = [] ∨ ∃ c cs, scheme = c :: cs ∧ c.isAlpha = true ∧
      (∀ x ∈ cs, isSchemeChar x = true) ∧ scheme.map toLowerChar = scheme)
    (hnosch : scheme = [] →
      getScheme (a ++ (if fq = true ∨ q ≠ [] then '?' :: q else [])) = .noScheme)
    (hhash : ∀ x ∈ a, x ≠ '#')
    (hactl : ∀ x ∈ a, isCtl x = false)
    (haq : ∀ x ∈ a, x ≠ '?')
    (hq : ∀ x ∈ q, x ≠ '#' ∧ isCtl x = false)
    (hfq : fq = true → q = [])
    (hfrag : validEscape frag = true) :
    parseChars ((((if scheme ≠ [] then scheme ++ [':'] else []) ++ a) ++
        (if fq = true ∨ q ≠ [] then '?' :: q else [])) ++
        (if frag ≠ [] then '#' :: frag else [])) =
      parseMain scheme a fq q frag := by
  have hqp : ∀ x ∈ (if fq = true ∨ q ≠ [] then '?' :: q else []),
      x ≠ '#' ∧ isCtl x = false := by
    intro x hx
    split_ifs at hx
    · rcases List.mem_cons.mp hx with rfl | hx
      · exact ⟨by decide, by decide⟩
      · exact hq x hx
    · simp at hx
  by_cases hs : scheme = []
  · subst hs
    have harg : ((((if ([] : List Char) ≠ [] then [] ++ [':'] else []) ++ a) ++
        (if fq = true ∨ q ≠ [] then '?' :: q else []))) =
        a ++ (if fq = true ∨ q ≠ [] then '?' :: q else []) := by
      simp
    rw [harg, parseChars_decompose _ frag ?_ ?_ hfrag]
    · rw [hnosch rfl]
      exact parseAfterScheme_render [] a q frag fq haq hfq
    · intro x hx
      rcases List.mem_append.mp hx with hx | hx
      · exact hhash x hx
      · exact (hqp x hx).1
    · intro x hx
      rcases List.mem_append.mp hx with hx | hx
      · exact hactl x hx
      · exact (hqp x hx).2
  · obtain ⟨c, cs, hsc, hca, hcs, hmap⟩ := hscheme.resolve_left hs
    subst hsc
    have harg : ((((if (c :: cs : List Char) ≠ [] then (c :: cs) ++ [':'] else []) ++ a) ++
        (if fq = true ∨ q ≠ [] then '?' :: q else []))) =
        (c :: cs) ++ ':' :: (a ++ (if fq = true ∨ q ≠ [] then '?' :: q else [])) := by
      rw [if_pos (by simp)]
      simp [List.append_assoc]
    rw [harg, parseChars_decompose _ frag ?_ ?_ hfrag]
    · rw [getScheme_render c cs _ hca hcs]
      dsimp only
      rw [hmap]
      exact parseAfterScheme_render (c :: cs) a q frag fq haq hfq
    · intro x hx
      simp only [List.cons_append, List.mem_cons, List.mem_append] at hx
      rcases hx with rfl | hx
      · exact (alpha_not_delim x hca).1
      · rcases hx with hx | rfl | hx | hx
        · exact (schemeChar_not_delim x (hcs x hx)).1
        · decide
        · exact hhash x hx
        · exact (hqp x hx).1
    · intro x hx
      simp only [List.cons_append, List.mem_cons, List.mem_append] at hx
      rcases hx with rfl | hx
      · exact (alpha_not_delim x hca).2.2.2.2
      · rcases hx with hx | rfl | hx | hx
        · exact (schemeChar_not_delim x (hcs x hx)).2.2.2.2
        · decide
        · exact (hactl x hx)
        · exact (hqp x hx).2

theorem reparse_render (v : GoURL) (hv : URLInv v) :
    parseChars (renderChars v) = some (if v.opq = [] then v else { v with path := [] }) := by
  obtain ⟨sch, opq, omh, host, path, fq, q, frag⟩ := v
  obtain ⟨h1, h2, h3, h4, h5, h6, h7, h8, h9, h10, h11, h12, h13, h14, h15, h16⟩ := hv
  simp only at h1 h2 h3 h4 h5 h6 h7 h8 h9 h10 h11 h12 h13 h14 h15 h16
  have hpathne : path ≠ [] := by
    intro hp
    rw [hp] at h10
    simp at h10
  have hqp : ∀ x ∈ (if fq = true ∨ q ≠ [] then '?' :: q else []),
      x ≠ '#' ∧ isCtl x = false := by
    intro x hx
    split_ifs at hx with hcq
    · rcases List.mem_cons.mp hx with rfl | hx
      · exact ⟨by decide, by decide⟩
      · exact h4 x hx
    · simp at hx
  by_cases hopq : opq = []
  · subst hopq
    simp only [ite_true]
    by_cases hhost : host = []
    · subst hhost
      by_cases homh : omh = true
      · obtain ⟨hsne, -, -, r, hpr, hrh⟩ := h12 homh
        subst homh
        subst hpr
        have hrender : renderChars ⟨sch, [], true, [], '/' :: r, fq, q, frag⟩ =
            ((((if sch ≠ [] then sch ++ [':'] else []) ++ ('/' :: r)) ++
              (if fq = true ∨ q ≠ [] then '?' :: q else [])) ++
              (if frag ≠ [] then '#' :: frag else [])) := by
          simp [renderChars, hsne, List.append_assoc]
        rw [hrender, parseChars_core sch ('/' :: r) q frag fq h1
            (fun hs => absurd hs hsne)
            (fun x hx => (h3 x hx).2.1) (fun x hx => (h3 x hx).2.2)
            (fun x hx => (h3 x hx).1) h4 h9 h7,
          parseMain_single sch r fq q frag hrh h8, decide_eq_true hsne]
      · rw [Bool.not_eq_true] at homh
        subst homh
        by_cases hsch : sch = []
        · subst hsch
          obtain ⟨hcolon, hheads⟩ := h15 rfl rfl
          have hcontains :
              (path.takeWhile (fun x => decide (x ≠ '/'))).contains ':' = false := by
            cases hcb : (path.takeWhile (fun x => decide (x ≠ '/'))).contains ':' with
            | false => rfl
            | true =>
              exfalso
              exact hcolon ':' (List.mem_of_elem_eq_true hcb) rfl
          have hnotmem : ':' ∉ path.takeWhile (fun x => !decide (x = '/')) := by
            intro hm
            refine hcolon ':' ?_ rfl
            simpa using hm
          have hrender : renderChars ⟨[], [], false, [], path, fq, q, frag⟩ =
              ((((if ([] : List Char) ≠ [] then [] ++ [':'] else []) ++ path) ++
                (if fq = true ∨ q ≠ [] then '?' :: q else [])) ++
                (if frag ≠ [] then '#' :: frag else [])) := by
            simp [renderChars, hnotmem, List.append_assoc]
          rw [hrender, parseChars_core [] path q frag fq (Or.inl rfl) ?c4n
              (fun x hx => (h3 x hx).2.1) (fun x hx => (h3 x hx).2.2)
              (fun x hx => (h3 x hx).1) h4 h9 h7]
          · rcases path with _ | ⟨x, xs⟩
            · exact absurd rfl hpathne
            · by_cases hx : x = '/'
              · subst hx
                rcases xs with _ | ⟨y, ys⟩
                · rw [parseMain_single [] [] fq q frag (by simp) h8]
                  rfl
                · by_cases hy : y = '/'
                  · subst hy
                    rw [parseMain_tripleslash ys fq q frag (hheads rfl rfl) h8]
                  · rw [parseMain_single [] (y :: ys) fq q frag (by simp [hy]) h8]
                    rfl
              · rw [parseMain_relative fq q frag x xs hx hcontains h8]
          case c4n =>
            intro _
            apply getScheme_noScheme_of
            rw [takeWhile_append_of_stop _ path _
              ⟨'/', List.mem_of_mem_getLast? h10, by decide⟩]
            exact hcolon
        · have hph : path.head? = some '/' := h14 rfl rfl rfl hsch
          have hrender : renderChars ⟨sch, [], false, [], path, fq, q, frag⟩ =
              ((((if sch ≠ [] then sch ++ [':'] else []) ++ ('/' :: '/' :: path)) ++
                (if fq = true ∨ q ≠ [] then '?' :: q else [])) ++
                (if frag ≠ [] then '#' :: frag else [])) := by
            simp [renderChars, hsch, hpathne, List.append_assoc]
          rw [hrender, parseChars_core sch ('/' :: '/' :: path) q frag fq h1
              (fun hs => absurd hs hsch) ?c3h ?c3c ?c3q h4 h9 h7]
          · exact parseMain_authority sch [] path fq q frag (by simp) hph
              (Or.inl hsch) (by decide) h8
          case c3h =>
            intro x hx
            simp only [List.mem_cons] at hx
            rcases hx with rfl | rfl | hx
            · decide
            · decide
            · exact (h3 x hx).2.1
          case c3c =>
            intro x hx
            simp only [List.mem_cons] at hx
            rcases hx with rfl | rfl | hx
            · decide
            · decide
            · exact (h3 x hx).2.2
          case c3q =>
            intro x hx
            simp only [List.mem_cons] at hx
            rcases hx with rfl | rfl | hx
            · decide
            · decide
            · exact (h3 x hx).1
    · obtain ⟨-, homh, hph⟩ := h13 hhost
      subst homh
      have hcond : sch ≠ [] ∨ (host ++ path).head? ≠ some '/' := by
        right
        rcases host with _ | ⟨a, b⟩
        · exact absurd rfl hhost
        · simp only [List.cons_append, List.head?_cons]
          intro hcontra
          exact (h2 a (List.mem_cons_self a b)).1 (Option.some.inj hcontra)
      have hrender : renderChars ⟨sch, [], false, host, path, fq, q, frag⟩ =
          ((((if sch ≠ [] then sch ++ [':'] else []) ++
            ('/' :: '/' :: (host ++ path))) ++
            (if fq = true ∨ q ≠ [] then '?' :: q else [])) ++
            (if frag ≠ [] then '#' :: frag else [])) := by
        simp [renderChars, hhost, hpathne, hph, List.append_assoc]
      rw [hrender, parseChars_core sch ('/' :: '/' :: (host ++ path)) q frag fq h1
          (fun _ => rfl) ?c1h ?c1c ?c1q h4 h9 h7]
      · exact parseMain_authority sch host path fq q frag
          (fun a ha => decide_eq_true (h2 a ha).1) hph hcond h16 h8
      case c1h =>
        intro x hx
        simp only [List.mem_cons, List.mem_append] at hx
        rcases hx with rfl | rfl | hx | hx
        · decide
        · decide
        · exact (h2 x hx).2.2.1
        · exact (h3 x hx).2.1
      case c1c =>
        intro x hx
        simp only [List.mem_cons, List.mem_append] at hx
        rcases hx with rfl | rfl | hx | hx
        · decide
        · decide
        · exact (h2 x hx).2.2.2
        · exact (h3 x hx).2.2
      case c1q =>
        intro x hx
        simp only [List.mem_cons, List.mem_append] at hx
        rcases hx with rfl | rfl | hx | hx
        · decide
        · decide
        · exact (h2 x hx).2.1
        · exact (h3 x hx).1
  · -- opaque case
    simp only [if_neg hopq]
    obtain ⟨hsne, hh, ho, hp⟩ := h11 hopq
    subst hh
    subst hp
    subst ho
    obtain ⟨c, cs, hsc, hca, hcs, hmap⟩ := h1.resolve_left (by simpa using hsne)
    subst hsc
    obtain ⟨o, os, hos⟩ := List.exists_cons_of_ne_nil hopq
    have hone : o ≠ '/' := by
      intro hoeq
      apply h6
      rw [hos, hoeq]
      rfl
    have hcore : renderChars ⟨c :: cs, opq, false, [], ['/'], fq, q, frag⟩ =
        ((c :: cs) ++ ':' :: (opq ++ (if fq = true ∨ q ≠ [] then '?' :: q else []))) ++
          (if frag ≠ [] then '#' :: frag else []) := by
      simp only [renderChars]
      rw [if_pos (by simp : (c :: cs : List Char) ≠ []), if_pos hopq]
      simp [List.append_assoc]
    rw [hcore, parseChars_decompose _ frag ?hh ?hc h7]
    case hh =>
      intro a ha
      simp only [List.mem_append, List.mem_cons] at ha
      rcases ha with (rfl | ha) | rfl | ha | ha
      · exact (alpha_not_delim a hca).1
      · exact (schemeChar_not_delim a (hcs a ha)).1
      · decide
      · exact (h5 a ha).2.1
      · exact (hqp a ha).1
    case hc =>
      intro a ha
      simp only [List.mem_append, List.mem_cons] at ha
      rcases ha with (rfl | ha) | rfl | ha | ha
      · exact (alpha_not_delim a hca).2.2.2.2
      · exact (schemeChar_not_delim a (hcs a ha)).2.2.2.2
      · decide
      · exact (h5 a ha).2.2
      · exact (hqp a ha).2
    have hgs := getScheme_render c cs (opq ++ (if fq = true ∨ q ≠ [] then '?' :: q else []))
      hca hcs
    rw [hgs]
    dsimp only
    have hnoq : ∀ x ∈ opq, x ≠ '?' := fun x hx => (h5 x hx).1
    rw [hmap, parseAfterScheme_render (c :: cs) opq q frag fq hnoq h9]
    subst hos
    rw [parseMain.eq_def]
    split
    next r heq =>
      exfalso
      injection heq with hx _
      exact hone hx
    next r heq =>
      exfalso
      injection heq with hx _
      exact hone hx
    next hne1 hne2 =>
      rw [if_pos (by simp : (c :: cs : List Char) ≠ [])]

/-- The character data of a rendered URL. -/
theorem render_data (u : GoURL) : (GoURL.render u).data = renderChars u := rfl

/-- Re-normalizing the reparse of a stored base gives the base back. -/
theorem nrm_reparse (v : GoURL) (hv : URLInv v) :
    nrm (if v.opq = [] then v else { v with path := [] }) = v := by
  by_cases ho : v.opq = []
  · rw [if_pos ho]
    simp only [nrm]
    rw [if_pos hv.path_slash]
  · rw [if_neg ho]
    have hp : v.path = ['/'] := (hv.shape_opq ho).2.2.2
    simp only [nrm]
    rw [if_neg (by simp)]
    obtain ⟨sch, opq, omh, host, path, fq, q, frag⟩ := v
    simp only at hp
    subst hp
    rfl

/-- Feeding the rendered stored base back to `SetBaseURL` changes
nothing and reports no error. -/
theorem setBaseURL_self (c : Client) (hv : URLInv c.baseURL) :
    SetBaseURL c c.baseURL.render = (c, none) := by
  unfold SetBaseURL
  rw [render_data, reparse_render c.baseURL hv]
  dsimp only
  rw [nrm_reparse c.baseURL hv]

/-- The rendered form of a query- and fragment-free hierarchical URL
whose path ends with a slash itself ends with a slash. -/
theorem renderChars_getLast (v : GoURL) (ho : v.opq = [])
    (hfq : v.forceQuery = false) (hq : v.rawQuery = []) (hf : v.fragment = [])
    (hp : v.path.getLast? = some '/') :
    (renderChars v).getLast? = some '/' := by
  have hpne : v.path ≠ [] := by
    intro h
    rw [h] at hp
    simp at hp
  have hshape : renderChars v =
      (if v.scheme ≠ [] then v.scheme ++ [':'] else []) ++
      ((if (v.scheme ≠ [] ∨ v.host ≠ []) ∧ ¬ (v.omitHost ∧ v.host = []) ∧
          (v.host ≠ [] ∨ v.path ≠ []) then '/' :: '/' :: v.host else []) ++
       ((if v.path ≠ [] ∧ v.path.head? ≠ some '/' ∧ v.host ≠ [] then ['/'] else []) ++
        ((if v.scheme = [] ∧ v.host = [] ∧ (v.path.takeWhile (· ≠ '/')).contains ':'
          then ['.', '/'] else []) ++ v.path))) := by
    simp [renderChars, ho, hfq, hq, hf, List.append_assoc]
  rw [hshape]
  rw [List.getLast?_append_of_ne_nil _ ?g1, List.getLast?_append_of_ne_nil _ ?g2,
      List.getLast?_append_of_ne_nil _ ?g3, List.getLast?_append_of_ne_nil _ hpne]
  · exact hp
  case g1 => simp [hpne]
  case g2 => simp [hpne]
  case g3 => simp [hpne]

/-- C5: for every client and URL string accepted by `url.Parse` whose
path does not already end with a slash, a successful `SetBaseURL` stores
a base whose path ends with exactly one slash; the string form of the
stored base ends with a slash whenever the URL carries no query, no
force-query flag, no fragment and no opaque part; and the operation is
idempotent: running `SetBaseURL` again on the rendered stored base
succeeds and leaves the client unchanged. -/
theorem c5_slash_idem (c c' : Client) (s : String) (u : GoURL)
    (hp : parseURL s = some u)
    (hset : SetBaseURL c s = (c', none))
    (hnoslash : u.path.getLast? ≠ some '/') :
    c'.baseURL.path.getLast? = some '/' ∧
    c'.baseURL.path.dropLast.getLast? ≠ some '/' ∧
    (u.opq = [] → u.forceQuery = false → u.rawQuery = [] → u.fragment = [] →
      c'.baseURL.render.data.getLast? = some '/') ∧
    SetBaseURL c' c'.baseURL.render = (c', none) := by
  unfold parseURL at hp
  have hc' : { c with baseURL := nrm u } = c' := by
    unfold SetBaseURL at hset
    rw [hp] at hset
    exact congrArg Prod.fst hset
  subst hc'
  refine ⟨?_, ?_, ?_, ?_⟩
  · exact nrm_path_slash u
  · dsimp only
    have hpath : (nrm u).path = u.path ++ ['/'] := by
      rw [nrm_path, if_neg hnoslash]
    rw [hpath, List.dropLast_concat]
    exact hnoslash
  · intro ho hfq hq hf
    dsimp only
    rw [render_data]
    exact renderChars_getLast (nrm u) ((nrm_fields u).2.1.trans ho)
      ((nrm_fields u).2.2.2.2.1.trans hfq) ((nrm_fields u).2.2.2.2.2.1.trans hq)
      ((nrm_fields u).2.2.2.2.2.2.trans hf) (nrm_path_slash u)
  · exact setBaseURL_self _ (parseChars_nrm_inv s.data u hp)

theorem c5_slash_idem_witness :
    (parseURL "http://h/api" =
      some ⟨"http".data, [], false, "h".data, "/api".data, false, [], []⟩) ∧
    (SetBaseURL clientWitA "http://h/api" = (clientWitA', none)) ∧
    ("/api".data.getLast? ≠ some '/') ∧
    (clientWitA'.baseURL.path.getLast? = some '/' ∧
     clientWitA'.baseURL.path.dropLast.getLast? ≠ some '/' ∧
     (([] : List Char) = [] → false = false → ([] : List Char) = [] →
       ([] : List Char) = [] →
       clientWitA'.baseURL.render.data.getLast? = some '/') ∧
     SetBaseURL clientWitA' clientWitA'.baseURL.render = (clientWitA', none)) :=
  ⟨by decide, by decide, by decide,
   c5_slash_idem clientWitA clientWitA' "http://h/api"
     ⟨"http".data, [], false, "h".data, "/api".data, false, [], []⟩
     (by decide) (by decide) (by decide)⟩

/-- C5 counterexample: a successful `SetBaseURL` on an absolute URL with
a query whose path lacks a trailing slash stores a base whose string form
does not end with a path separator (the slash is appended to the path,
before the query). -/
theorem c5_counterexample :
    SetBaseURL clientWitA "http://h/api?x=1" = (clientWitB, none) ∧
    clientWitB.baseURL.render = "http://h/api/?x=1" ∧
    "http://h/api/?x=1".data.getLast? ≠ some '/' :=
  ⟨by decide, by decide, by decide⟩

/-- C6: `SetBaseURL` returns the parse error and leaves the client
unchanged exactly when `url.Parse` rejects the raw string; whenever
`url.Parse` accepts it — absolute or not — it returns nil and stores the
normalized parse result as the new base. -/
theorem c6_parse_error_paths (c : Client) (s : String) :
    (parseURL s = none → SetBaseURL c s = (c, some "parse error")) ∧
    (∀ u, parseURL s = some u →
      SetBaseURL c s = ({ c with baseURL := nrm u }, none)) := by
  constructor
  · intro h
    unfold parseURL at h
    unfold SetBaseURL
    rw [h]
  · intro u h
    unfold parseURL at h
    unfold SetBaseURL
    rw [h]

theorem c6_parse_error_paths_witness :
    (parseURL "://x" = none ∧
      SetBaseURL clientWitC "://x" = (clientWitC, some "parse error")) ∧
    (parseURL "http://ho%st/x" = none ∧
      SetBaseURL clientWitC "http://ho%st/x" = (clientWitC, some "parse error")) ∧
    (parseURL "http://h:1x/" = none ∧
      SetBaseURL clientWitC "http://h:1x/" = (clientWitC, some "parse error")) ∧
    (parseURL "http://[::1/x" = none ∧
      SetBaseURL clientWitC "http://[::1/x" = (clientWitC, some "parse error")) :=
  ⟨⟨by decide, (c6_parse_error_paths clientWitC "://x").1 (by decide)⟩,
   ⟨by decide, (c6_parse_error_paths clientWitC "http://ho%st/x").1 (by decide)⟩,
   ⟨by decide, (c6_parse_error_paths clientWitC "http://h:1x/").1 (by decide)⟩,
   ⟨by decide, (c6_parse_error_paths clientWitC "http://[::1/x").1 (by decide)⟩⟩

/-- C6 counterexample: the relative reference "foo" is not an absolute
URL (it has no scheme), yet `url.Parse` accepts it, so `SetBaseURL`
returns nil and mutates the stored base instead of failing. -/
theorem c6_counterexample :
    parseURL "foo" = some ⟨[], [], false, [], "foo".data, false, [], []⟩ ∧
    SetBaseURL clientWitC "foo" = (clientWitC', none) ∧
    clientWitC'.baseURL ≠ clientWitC.baseURL :=
  ⟨by decide, by decide, by decide⟩
